import Mathlib

/-!
Shallow embedding of the ConfigStoreCpp `Configuration::Store` core
(source file `src/unnamed/part_002`, header `src/Configuration/Configuration.h`).

The persistent state is the `Entries` table (a list of rows in insertion
order, as SQLite scans them without `ORDER BY`) together with the cached
name delimiter, plus the `Settings` table.  Entry names are modeled as
`List Char` (the C++ `std::wstring`), ids and revisions as `Int` (SQLite
integers are signed 64-bit; the revision increment `++revision` is
undefined behaviour at the maximum, we model the counter as unbounded).
Fallible operations return `Except Err`; a thrown C++ exception that
aborts the enclosing transaction corresponds to the `.error` case, which
yields no successor state (the transaction destructor rolls back).
-/

namespace ConfigStore

/-- Error taxonomy, from the exception hierarchy in Configuration.h. -/
inductive Err where
  | invalidName
  | entryNotFound
  | nameAlreadyExists
  | hasChildEntry
  | wrongValueType
  | invalidTransaction
  | invalidDelimiter
  | invalidQuery
  | invalidInsert
  | invalidEntryNameFound
  | entryIdNotUnique
  | abandonedEntry
  | invalidEntryLinking
deriving Repr, DecidableEq

/-- Value type tags, `enum class ValueType {Integer = 1, String = 2, Binary = 3}`. -/
inductive ValueType where
  | integer
  | string
  | binary
deriving Repr, DecidableEq

/-- On-disk integer tag of a value type (Configuration.h line 68). -/
def ValueType.tag : ValueType → Int
  | .integer => 1
  | .string => 2
  | .binary => 3

/-- A typed payload: one of the three public value kinds of the store. -/
inductive Value where
  | int (i : Int)
  | str (s : List Char)
  | bin (b : List Nat)
deriving Repr, DecidableEq

/-- The value type tag determined by a payload, as fixed by the public
overloads `Create`, `Set` and `SetOrCreate` for each of the three types. -/
def Value.vtype : Value → ValueType
  | .int _ => .integer
  | .str _ => .string
  | .bin _ => .binary

/-- One row of the `Entries` table:
`Id INTEGER PRIMARY KEY, Parent INTEGER, Revision INTEGER, Name TEXT, Type INTEGER, Value BLOB`. -/
structure Entry where
  id : Int
  parent : Int
  name : List Char
  revision : Int
  vtype : ValueType
  value : Value
deriving Repr, DecidableEq

/-- In-memory store state relevant to the tree engine: the `Entries` table in
row order and the cached name delimiter `m_Delimiter`. -/
structure StoreState where
  entries : List Entry
  delimiter : Char
deriving Repr, DecidableEq

/-- The root entry row inserted by `CheckOrSetRootEntry`
(part_002 lines 282 to 298): `VALUES (0, 0, 0, Integer, "", 0)`. -/
def rootEntry : Entry :=
  { id := 0, parent := 0, name := [], revision := 0, vtype := .integer, value := .int 0 }

/-- State of a freshly initialized store: just the root entry. -/
def initialState (delim : Char) : StoreState :=
  { entries := [rootEntry], delimiter := delim }

/-! ### Name validation and parsing (part_002 lines 501 to 549) -/

/-- Whether the string contains two consecutive occurrences of `delim`;
this is the `name.find(String(2, delimiter)) != npos` test of `IsValidName`. -/
def hasAdjacentDelims (delim : Char) : List Char → Bool
  | a :: b :: rest => (a == delim && b == delim) || hasAdjacentDelims delim (b :: rest)
  | _ => false

/-- Store::IsValidName (part_002 lines 501 to 522): a name must be non-empty,
must not start or end with the delimiter, and must not contain two
consecutive delimiters. -/
def IsValidName (delim : Char) (name : List Char) : Bool :=
  if name.isEmpty then false
  else if name.headD delim == delim || name.getLastD delim == delim then false
  else if hasAdjacentDelims delim name then false
  else true

/-- Helper of `tokenize`: prepends `acc` (the pending token, reversed) when
non-empty. -/
def flushToken (acc : List Char) (toks : List (List Char)) : List (List Char) :=
  if acc.isEmpty then toks else acc.reverse :: toks

/-- Token scan of `boost::tokenizer` with `char_separator(delimiter)`:
maximal non-empty runs of non-delimiter characters, in order. -/
def tokenizeAux (delim : Char) (acc : List Char) : List Char → List (List Char)
  | [] => flushToken acc []
  | c :: rest =>
    if c == delim then flushToken acc (tokenizeAux delim [] rest)
    else tokenizeAux delim (c :: acc) rest

/-- Splits a string at delimiter characters, dropping empty tokens, as the
boost tokenizer used by `ParseName` does. -/
def tokenize (delim : Char) (s : List Char) : List (List Char) :=
  tokenizeAux delim [] s

/-- Store::ParseName (part_002 lines 524 to 539): reject invalid names with
`InvalidName`, otherwise split the name into its local segments. -/
def parseName (s : StoreState) (name : List Char) : Except Err (List (List Char)) :=
  if IsValidName s.delimiter name then .ok (tokenize s.delimiter name)
  else .error .invalidName

/-! ### Claim C8: name validation characterization -/

/-- Spec-side adjacency property (written from the words of the spec, for the
refinement statement of C8): some position holds the delimiter and so does
the next one. -/
def SpecTwoAdjacentDelims (delim : Char) (s : List Char) : Prop :=
  ∃ i : Nat, i + 1 < s.length ∧ s.getD i delim = delim ∧ s.getD (i + 1) delim = delim

theorem hasAdjacentDelims_iff (delim : Char) (s : List Char) :
    hasAdjacentDelims delim s = true ↔ SpecTwoAdjacentDelims delim s := by
  induction s with
  | nil => simp [hasAdjacentDelims, SpecTwoAdjacentDelims]
  | cons a t ih =>
    cases t with
    | nil => simp [hasAdjacentDelims, SpecTwoAdjacentDelims]
    | cons b u =>
      simp only [hasAdjacentDelims, Bool.or_eq_true, Bool.and_eq_true, beq_iff_eq] at *
      constructor
      · rintro (⟨ha, hb⟩ | h)
        · exact ⟨0, by simp, by simpa using ha, by simpa using hb⟩
        · obtain ⟨i, hi, h1, h2⟩ := ih.mp h
          exact ⟨i + 1, by simpa using hi, by simpa using h1, by simpa using h2⟩
      · rintro ⟨i, hi, h1, h2⟩
        cases i with
        | zero => exact Or.inl ⟨by simpa using h1, by simpa using h2⟩
        | succ j =>
          exact Or.inr (ih.mpr ⟨j, by simpa using hi, by simpa using h1, by simpa using h2⟩)

/-- Claim C8: `IsValidName` returns true iff the string is non-empty, its
first character is not the delimiter, its last character is not the
delimiter, and it has no two adjacent delimiter characters. -/
theorem isValidName_iff (delim : Char) (s : List Char) :
    IsValidName delim s = true ↔
      s ≠ [] ∧ s.head? ≠ some delim ∧ s.getLast? ≠ some delim ∧
        ¬ SpecTwoAdjacentDelims delim s := by
  cases hs : s with
  | nil => simp [IsValidName]
  | cons a t =>
    have hne : a :: t ≠ ([] : List Char) := by simp
    simp only [IsValidName, List.isEmpty_cons, if_false, Bool.false_eq_true]
    have hhead : (a :: t).headD delim = a := rfl
    have hhead2 : (a :: t).head? = some a := rfl
    have hlastD : (a :: t).getLastD delim = (a :: t).getLast hne := by
      rw [List.getLastD_eq_getLast?, List.getLast?_eq_getLast _ hne]
      rfl
    have hlast2 : (a :: t).getLast? = some ((a :: t).getLast hne) :=
      List.getLast?_eq_getLast _ hne
    by_cases h1 : a = delim
    · simp [hhead, h1, hhead2]
    · by_cases h2 : (a :: t).getLast hne = delim
      · simp [hhead, hlastD, h1, h2, hlast2]
      · have : ((a :: t).headD delim == delim || (a :: t).getLastD delim == delim) = false := by
          rw [hhead, hlastD]
          simp [h1, h2]
        rw [this]
        simp only [Bool.false_eq_true, if_false]
        by_cases h3 : hasAdjacentDelims delim (a :: t) = true
        · simp only [h3, if_true]
          constructor
          · intro h; exact absurd h (by simp)
          · rintro ⟨-, -, -, hno⟩
            exact absurd ((hasAdjacentDelims_iff delim (a :: t)).mp h3) hno
        · simp only [Bool.not_eq_true] at h3
          simp only [h3, Bool.false_eq_true, if_false]
          constructor
          · intro _
            refine ⟨hne, ?_, ?_, ?_⟩
            · rw [hhead2]; simp [h1]
            · rw [hlast2]; simp [h2]
            · intro hc
              rw [← hasAdjacentDelims_iff] at hc
              rw [h3] at hc
              exact absurd hc (by simp)
          · intro _; trivial

/-! ### Entry table primitives (part_002 lines 572 to 699 and 1010 to 1146) -/

/-- Lookup of `GetEntryId(IdList, String, Integer)` (part_002 lines 572 to 594):
`SELECT Id FROM Entries WHERE Name = ?1 AND Parent = ?2`, first row if any
(the unique index on `(Name, Parent)` makes it unique on consistent data). -/
def findId (es : List Entry) (name : List Char) (parent : Int) : Option Int :=
  (es.find? (fun e => e.name == name && e.parent == parent)).map (·.id)

/-- Path walk of `GetEntryId(IdList, Path::const_iterator, Path, Integer)`
(part_002 lines 596 to 614): resolve segments left to right, starting at
`parent`; returns the matched id chain and the remaining unmatched
segments (empty iff the full path resolved). -/
def resolveIds (es : List Entry) (parent : Int) :
    List (List Char) → List Int × List (List Char)
  | [] => ([], [])
  | n :: rest =>
    match findId es n parent with
    | none => ([], n :: rest)
    | some id =>
      let r := resolveIds es id rest
      (id :: r.1, r.2)

/-- Throwing variant `GetEntryId(const Path&, Integer)` (part_002 lines 623
to 635): the full id chain, or `EntryNotFound`. -/
def getEntryIdE (es : List Entry) (path : List (List Char)) : Except Err (List Int) :=
  let r := resolveIds es 0 path
  if r.2.isEmpty then .ok r.1 else .error .entryNotFound

/-- Store::GetEntryRevision (part_002 lines 660 to 686):
`SELECT Revision FROM Entries WHERE Id = ?1`, `InvalidQuery` if no row. -/
def getEntryRevision (es : List Entry) (id : Int) : Except Err Int :=
  match es.find? (fun e => e.id == id) with
  | none => .error .invalidQuery
  | some e => .ok e.revision

/-- One read-increment-write round of `UpdateRevision` (part_002 lines 733
to 751): read the revision of the first row with the id, then
`UPDATE Entries SET Revision = read + 1 WHERE Id = ?1`. -/
def bumpRevision (es : List Entry) (id : Int) : Option (List Entry) :=
  match es.find? (fun e => e.id == id) with
  | none => none
  | some e =>
    some (es.map (fun x => if x.id == id then { x with revision := e.revision + 1 } else x))

/-- Store::UpdateRevision (part_002 lines 701 to 755): bump the root revision,
then the revision of each id of the chain in order; `none` models the
`InvalidQuery` throw when a queried id is missing. -/
def updateRevision (es : List Entry) (ids : List Int) : Option (List Entry) := do
  let es1 ← bumpRevision es 0
  ids.foldlM bumpRevision es1

/-- Row update of `SetEntry(const IdList&, ...)` (part_002 lines 761 to 770):
`UPDATE Entries SET Type = ?1, Value = ?2 WHERE Id = ?3` (revision untouched
by this statement). -/
def writeEntryValue (es : List Entry) (id : Int) (t : ValueType) (v : Value) : List Entry :=
  es.map (fun e => if e.id == id then { e with vtype := t, value := v } else e)

/-- The id SQLite assigns to a row inserted without an explicit `Id`:
largest existing rowid plus one (the root row keeps the maximum at least 0). -/
def freshId (es : List Entry) : Int :=
  (es.map (·.id)).foldl max 0 + 1

/-- Row insert of `CreateEntry(Integer, String, ...)` (part_002 lines 810 to
829): `INSERT INTO Entries (Name, Parent, Type, Revision, Value) VALUES ...`
with a random revision; `none` models the constraint-violation throw of the
unique index on `(Name, Parent)`. -/
def insertEntry (es : List Entry) (parent : Int) (name : List Char)
    (t : ValueType) (rev : Int) (v : Value) : Option (List Entry) :=
  if es.any (fun e => e.name == name && e.parent == parent) then none
  else
    some (es ++ [{ id := freshId es, parent := parent, name := name,
                   revision := rev, vtype := t, value := v }])

/-- Segment walk of `CreateEntry(IdList, Path::const_iterator, ...)`
(part_002 lines 831 to 852): every segment but the last is inserted with the
default payload `(Integer, 0)` and becomes the next parent (via a fresh
`GetEntryId` lookup); the last segment is inserted with the caller value.
`revs` supplies the random revisions drawn by `GetRandomRevision`. -/
def createChain (es : List Entry) (parentPath : List Int) (segs : List (List Char))
    (t : ValueType) (v : Value) (revs : List Int) : Option (List Entry) :=
  match segs with
  | [] => some es
  | [n] => insertEntry es (parentPath.getLastD 0) n t (revs.headD 0) v
  | n :: rest => do
    let es1 ← insertEntry es (parentPath.getLastD 0) n .integer (revs.headD 0) (.int 0)
    let newId ← findId es1 n (parentPath.getLastD 0)
    createChain es1 (parentPath ++ [newId]) rest t v revs.tail

/-- Store::HasChild(Integer) (part_002 lines 1010 to 1035):
`SELECT COUNT(Id) FROM Entries WHERE Parent = ?1`; for the root the count is
decremented by one because the root row lists itself as its parent. -/
def hasChildCount (es : List Entry) (parent : Int) : Bool :=
  let count := (es.filter (fun e => e.parent == parent)).length
  let count := if parent == 0 then count - 1 else count
  count > 0

/-- Store::GetChildEntries (part_002 lines 1045 to 1062):
`SELECT Id FROM Entries WHERE Parent = ?1 AND Id != 0`, in row order. -/
def getChildEntries (es : List Entry) (parent : Int) : List Int :=
  (es.filter (fun e => e.parent == parent && e.id != 0)).map (·.id)

/-- Store::GetChildEntryNames (part_002 lines 1064 to 1081):
`SELECT Name FROM Entries WHERE Parent = ?1 AND Id != 0`, in row order. -/
def getChildEntryNames (es : List Entry) (parent : Int) : List (List Char) :=
  (es.filter (fun e => e.parent == parent && e.id != 0)).map (·.name)

/-- Row delete of `TryDeleteEntryImpl` (part_002 lines 1171 to 1176):
`DELETE FROM Entries WHERE Id = ?1`. -/
def deleteById (es : List Entry) (id : Int) : List Entry :=
  es.filter (fun e => e.id != id)

/-! ### Public tree operations -/

/-- Store::Exists (part_002 lines 646 to 658): parse the name (throws
`InvalidName` on the empty string) and test whether the full path resolves. -/
def existsOp (s : StoreState) (name : List Char) : Except Err Bool := do
  let path ← parseName s name
  pure (resolveIds s.entries 0 path).2.isEmpty

/-- Store::GetRevision (part_002 lines 688 to 699): the empty name denotes the
root; returns the `{id, revision}` pair of the named entry. -/
def getRevisionOp (s : StoreState) (name : List Char) : Except Err (Int × Int) := do
  let id ←
    if name.isEmpty then pure 0
    else do
      let path ← parseName s name
      let ids ← getEntryIdE s.entries path
      pure (ids.getLastD 0)
  let rev ← getEntryRevision s.entries id
  pure (id, rev)

/-- Store::HasChild(String) (part_002 lines 1037 to 1042): the empty name
denotes the root. -/
def hasChildOp (s : StoreState) (name : List Char) : Except Err Bool := do
  let id ←
    if name.isEmpty then pure 0
    else do
      let path ← parseName s name
      let ids ← getEntryIdE s.entries path
      pure (ids.getLastD 0)
  pure (hasChildCount s.entries id)

/-- Store::GetChildren (part_002 lines 1083 to 1088): the empty name denotes
the root. -/
def getChildrenOp (s : StoreState) (name : List Char) : Except Err (List (List Char)) := do
  let id ←
    if name.isEmpty then pure 0
    else do
      let path ← parseName s name
      let ids ← getEntryIdE s.entries path
      pure (ids.getLastD 0)
  pure (getChildEntryNames s.entries id)

/-- Store::SetEntry(String, ...) followed by the public `Set` overloads
(part_002 lines 775 to 797): resolve the full chain (`EntryNotFound` when
missing), write type and value of the last id, then bump the revisions of
the root and of every id of the chain. -/
def setOp (s : StoreState) (name : List Char) (v : Value) : Except Err StoreState := do
  let path ← parseName s name
  let ids ← getEntryIdE s.entries path
  let es := writeEntryValue s.entries (ids.getLastD 0) v.vtype v
  match updateRevision es ids with
  | none => .error .invalidQuery
  | some es2 => pure { s with entries := es2 }

/-- Store::CreateEntry(const Path&, ...) and the public `Create` overloads
(part_002 lines 854 to 900): fail with `NameAlreadyExists` when the full
path resolves; otherwise create the missing suffix (auto-vivifying
intermediates) and bump the revisions of the root and the existing
prefix chain. -/
def createOp (s : StoreState) (name : List Char) (v : Value) (revs : List Int) :
    Except Err StoreState := do
  let path ← parseName s name
  let r := resolveIds s.entries 0 path
  if r.2.isEmpty then .error .nameAlreadyExists
  else
    match createChain s.entries r.1 r.2 v.vtype v revs with
    | none => .error .invalidInsert
    | some es1 =>
      match updateRevision es1 r.1 with
      | none => .error .invalidQuery
      | some es2 => pure { s with entries := es2 }

/-- Store::SetOrCreate (part_002 lines 903 to 950): like `Create` when the
path does not fully resolve, like `Set` on the resolved chain otherwise. -/
def setOrCreateOp (s : StoreState) (name : List Char) (v : Value) (revs : List Int) :
    Except Err StoreState := do
  let path ← parseName s name
  let r := resolveIds s.entries 0 path
  if r.2.isEmpty then
    let es := writeEntryValue s.entries (r.1.getLastD 0) v.vtype v
    match updateRevision es r.1 with
    | none => .error .invalidQuery
    | some es2 => pure { s with entries := es2 }
  else
    match createChain s.entries r.1 r.2 v.vtype v revs with
    | none => .error .invalidInsert
    | some es1 =>
      match updateRevision es1 r.1 with
      | none => .error .invalidQuery
      | some es2 => pure { s with entries := es2 }

/-! ### Deletion (part_002 lines 1148 to 1227)

The C++ recursion of `TryDeleteEntryImpl` has no explicit bound; the `fuel`
argument is the termination device of the embedding and is instantiated with
`entries.length + 1`, which is enough on every consistent state (the
recursion descends one tree level per call).  Running out of fuel yields
`none`, the image of a non-terminating run. -/

/-- The child loop of `TryDeleteEntryImpl` (part_002 lines 1160 to 1169),
abstracted over the recursive call so that the pair of functions is
structurally recursive: delete each listed child in order, threading the
table through, aborting on a diverging sub-delete. -/
def deleteChildrenWith (impl : List Entry → Int → Option (Bool × List Entry)) :
    List Entry → List Int → Option (List Entry)
  | es, [] => some es
  | es, c :: rest =>
    match impl es c with
    | none => none
    | some r => deleteChildrenWith impl r.2 rest

def tryDeleteEntryImpl : Nat → List Entry → Int → Bool → Option (Bool × List Entry)
  | 0, _, _, _ => none
  | f + 1, es, id, recursive =>
    if recursive then
      match deleteChildrenWith (fun es2 c => tryDeleteEntryImpl f es2 c true) es
          (getChildEntries es id) with
      | none => none
      | some es1 => some (true, deleteById es1 id)
    else
      if hasChildCount es id then some (false, es)
      else some (true, deleteById es id)

/-- The child-deletion loop at a fixed fuel: each child is deleted by a
recursive `TryDeleteEntryImpl` run with that fuel. -/
def deleteChildren (fuel : Nat) (es : List Entry) (cs : List Int) : Option (List Entry) :=
  deleteChildrenWith (fun es2 c => tryDeleteEntryImpl fuel es2 c true) es cs

/-- Store::TryDeleteEntry (part_002 lines 1181 to 1194): delete the last id of
the chain (recursively if asked), then bump the revisions of the root and of
the proper ancestors (`begin` to `begin + size - 1`, excluding the deleted
entry itself). -/
def tryDeleteEntry (es : List Entry) (idPath : List Int) (recursive : Bool) :
    Option (Bool × List Entry) := do
  let r ← tryDeleteEntryImpl (es.length + 1) es (idPath.getLastD 0) recursive
  if r.1 then
    let es2 ← updateRevision r.2 idPath.dropLast
    pure (true, es2)
  else pure (false, es)

/-- Store::TryDelete (part_002 lines 1196 to 1215): `false` when the name does
not resolve or when a non-recursive delete meets children; `true` (with the
state committed) otherwise. -/
def tryDeleteOp (s : StoreState) (name : List Char) (recursive : Bool) :
    Except Err (Bool × StoreState) := do
  let path ← parseName s name
  let r := resolveIds s.entries 0 path
  if !r.2.isEmpty then pure (false, s)
  else
    match tryDeleteEntry s.entries r.1 recursive with
    | none => .error .invalidQuery
    | some (b, es2) => pure (b, { s with entries := es2 })

/-- Store::Delete (part_002 lines 1217 to 1227): like `TryDelete` but raising
`EntryNotFound` when the name does not resolve and `HasChildEntry` when a
non-recursive delete meets children. -/
def deleteOp (s : StoreState) (name : List Char) (recursive : Bool) :
    Except Err StoreState := do
  let path ← parseName s name
  let ids ← getEntryIdE s.entries path
  match tryDeleteEntry s.entries ids recursive with
  | none => .error .invalidQuery
  | some (b, es2) =>
    if b then pure { s with entries := es2 }
    else .error .hasChildEntry

/-! ### Consistency checker (part_002 lines 315 to 481) -/

/-- The child loop of `TraverseChildren`, abstracted over the recursive
descent so that the pair of functions is structurally recursive: visit each
child, then its subtree, collecting the visited ids in order. -/
def traverseListWith (tc : Int → Option (List Int)) : List Int → Option (List Int)
  | [] => some []
  | c :: rest => do
    let sub ← tc c
    let more ← traverseListWith tc rest
    pure (c :: (sub ++ more))

/-- Store::TraverseChildren (part_002 lines 315 to 325): pre-order descent
through `GetChildEntries`, calling the consumer on every id reached; the
result collects the visited ids in order.  `fuel` bounds the recursion
depth; `none` is the image of a non-terminating run. -/
def traverseChildren : Nat → List Entry → Int → Option (List Int)
  | 0, _, _ => none
  | f + 1, es, id => traverseListWith (fun c => traverseChildren f es c) (getChildEntries es id)

/-- Folds `traverseChildren` over a child list at a fixed fuel, visiting each
child before its own subtree. -/
def traverseList (fuel : Nat) (es : List Entry) (cs : List Int) : Option (List Int) :=
  traverseListWith (fun c => traverseChildren fuel es c) cs

/-- First phase of `CheckDataConsistency` (part_002 lines 331 to 371): no
stored local name may contain the current delimiter. -/
def namesOk (es : List Entry) (delim : Char) : Bool :=
  es.all (fun e => !(e.name.contains delim))

/-- Ids of all entries except the root, in row order
(`SELECT Id FROM Entries WHERE Id != 0`, part_002 line 383). -/
def nonRootIds (es : List Entry) : List Int :=
  (es.filter (fun e => e.id != 0)).map (·.id)

/-- Sequential duplicate detection of the `std::set` insertion loop
(part_002 lines 386 to 424): true iff every id is distinct. -/
def allDistinct : List Int → Bool
  | [] => true
  | x :: rest => !rest.contains x && allDistinct rest

/-- Erasure loop of the traversal consumer (part_002 lines 429 to 445): erase
each visited id from the remaining set; the flag records whether some
erasure failed (a broken link), the list is what remains afterwards
(abandoned entries). -/
def eraseVisited (remaining : List Int) : List Int → Bool × List Int
  | [] => (false, remaining)
  | v :: rest =>
    if remaining.contains v then eraseVisited (remaining.erase v) rest
    else (true, (eraseVisited remaining rest).2)

/-- Store::CheckDataConsistency (part_002 lines 327 to 481): reject names
containing the delimiter, then duplicate non-root ids, then traverse from
the root erasing every reached id exactly once; broken erasures raise
`InvalidEntryLinking`, leftovers raise `AbandonedEntry`.  The outer `none`
is the image of a run whose unbounded tree descent does not terminate. -/
def checkDataConsistency (s : StoreState) : Option (Except Err Unit) :=
  if !(namesOk s.entries s.delimiter) then some (.error .invalidEntryNameFound)
  else if !(allDistinct (nonRootIds s.entries)) then some (.error .entryIdNotUnique)
  else
    match traverseChildren (s.entries.length + 1) s.entries 0 with
    | none => none
    | some visited =>
      let r := eraseVisited (nonRootIds s.entries) visited
      if r.1 then some (.error .invalidEntryLinking)
      else if !r.2.isEmpty then some (.error .abandonedEntry)
      else some (.ok ())

/-! ### Transaction manager (part_002 lines 1268 to 1293 and 1453 to 1498) -/

/-- The two transaction fields of `Store`: whether `m_Transaction.lock()`
yields a live transaction, and the cached `m_WriteableTransaction` flag. -/
structure TxManager where
  txAlive : Bool
  txWriteable : Bool
deriving Repr, DecidableEq

/-- Store::GetTransaction (part_002 lines 1268 to 1293): join a live
transaction (refusing a writer request with `InvalidTransaction` while the
live one is read-only), or open a fresh one of the requested kind.  The
returned flag tells whether the handle is shared with an existing scope
(`!m_Transaction.unique()` in the `WriteableTransaction` constructor). -/
def getTransaction (m : TxManager) (writeable : Bool) : Except Err (TxManager × Bool) :=
  if m.txAlive then
    if writeable && !m.txWriteable then .error .invalidTransaction
    else .ok (m, true)
  else .ok ({ txAlive := true, txWriteable := writeable }, false)

/-- WriteableTransaction::WriteableTransaction (part_002 lines 1462 to 1470):
requests a writeable transaction; a shared handle additionally receives a
savepoint (the returned flag). -/
def writeableTransactionBegin (m : TxManager) : Except Err (TxManager × Bool) :=
  getTransaction m true

/-! ### Settings table (part_002 lines 158 to 160 and 1295 to 1429)

The `Settings` table is created as
`CREATE TABLE Settings(Name TEXT  PRIMARYKEY, Value BLOB)`:
`PRIMARYKEY` (without a space) is not the SQL `PRIMARY KEY` constraint, it
is parsed by SQLite as part of the declared column type, so the table has
no uniqueness constraint at all.  Consequently
`INSERT OR REPLACE INTO Settings VALUES (?1, ?2)` (SetSettingImpl,
part_002 lines 1331 to 1343) never meets a conflict and behaves as a plain
`INSERT`, appending a new row each time. -/

/-- One row of the `Settings` table. -/
structure SettingRow where
  name : List Char
  value : Value
deriving Repr, DecidableEq

/-- Store::SetSettingImpl (part_002 lines 1331 to 1343): with no unique
constraint on `Name`, the `INSERT OR REPLACE` appends a row. -/
def setSettingImpl (tbl : List SettingRow) (name : List Char) (v : Value) :
    List SettingRow :=
  tbl ++ [{ name := name, value := v }]

/-- Store::GetSetting (part_002 lines 1374 to 1404):
`SELECT Value FROM Settings WHERE Name = ?1`, first matching row in scan
order, `SettingNotFound` when absent (returned here as `none`). -/
def getSettingRow (tbl : List SettingRow) (name : List Char) : Option Value :=
  (tbl.find? (fun r => r.name == name)).map (·.value)

/-- The `NameDelimiter` settings key. -/
def settingNameDelimiter : List Char := "NameDelimiter".toList

/-- The `MajorVersion` settings key. -/
def settingMajorVersion : List Char := "MajorVersion".toList

/-- The `MinorVersion` settings key. -/
def settingMinorVersion : List Char := "MinorVersion".toList

/-- Settings writes performed on the first open of a fresh store
(`GetAndCheckConfiguration`, part_002 lines 197 to 251): version rows, then
the delimiter row when absent. -/
def openFreshSettings (delim : Char) : List SettingRow :=
  setSettingImpl
    (setSettingImpl (setSettingImpl [] settingMajorVersion (.int 1))
      settingMinorVersion (.int 0))
    settingNameDelimiter (.str [delim])

/-- Store::IsValidNewDelimiter (part_002 lines 1229 to 1248).  The statement
text is `SELECT COUNT(Id) FROM Entries WHERE Name LIKE '%' + ?1 + '%'`.
In SQLite `+` is numeric addition, not concatenation: each text operand is
coerced to the number 0, the pattern expression evaluates to `0`, and the
comparison becomes `Name LIKE '0'`, which matches exactly the name `"0"`.
The delimiter argument does not influence the result. -/
def isValidNewDelimiter (es : List Entry) (_delim : Char) : Bool :=
  ((es.filter (fun e => e.name == ['0'])).length : Int) == 0

/-- Store::SetNewDelimiter (part_002 lines 1250 to 1266): check the new
delimiter with `IsValidNewDelimiter` (raising `InvalidDelimiter` on
failure), write the `NameDelimiter` setting and cache the new delimiter. -/
def setNewDelimiterOp (s : StoreState) (tbl : List SettingRow) (delim : Char) :
    Except Err (StoreState × List SettingRow) :=
  if !isValidNewDelimiter s.entries delim then .error .invalidDelimiter
  else .ok ({ s with delimiter := delim },
            setSettingImpl tbl settingNameDelimiter (.str [delim]))

deriving instance DecidableEq for Except

/-! ### Operation sequences and the structural invariant -/

/-- One public write operation of the store interface.  `revs` feeds the
random revisions drawn by `GetRandomRevision` for newly inserted rows. -/
inductive Op where
  | create (name : List Char) (v : Value) (revs : List Int)
  | setVal (name : List Char) (v : Value)
  | setOrCreate (name : List Char) (v : Value) (revs : List Int)
  | del (name : List Char) (recursive : Bool)
  | tryDel (name : List Char) (recursive : Bool)
deriving Repr, DecidableEq

/-- Runs one write operation; `none` when the operation raises (the enclosing
transaction is rolled back, so a raising call yields no new state). -/
def applyOp (s : StoreState) : Op → Option StoreState
  | .create n v revs => (createOp s n v revs).toOption
  | .setVal n v => (setOp s n v).toOption
  | .setOrCreate n v revs => (setOrCreateOp s n v revs).toOption
  | .del n r => (deleteOp s n r).toOption
  | .tryDel n r =>
    match tryDeleteOp s n r with
    | .ok x => some x.2
    | .error _ => none

/-- Runs a sequence of write operations, stopping at the first failure. -/
def runOps (s : StoreState) : List Op → Option StoreState
  | [] => some s
  | op :: rest =>
    match applyOp s op with
    | none => none
    | some s2 => runOps s2 rest

/-- Structural invariant of a committed store state: ids are unique, a root
row with id 0, parent 0 and empty name exists, and every non-root row has a
non-negative parent id smaller than its own id naming an existing row, a
non-empty local name, and no delimiter inside the name.  (`parent < id`
holds because SQLite assigns each new rowid as maximum plus one while the
parent already exists; it makes the parent relation well-founded.) -/
def WF (s : StoreState) : Prop :=
  (s.entries.map Entry.id).Nodup ∧
  (∃ r ∈ s.entries, r.id = 0) ∧
  (∀ e ∈ s.entries, e.id = 0 → e.parent = 0 ∧ e.name = []) ∧
  (∀ e ∈ s.entries, e.id ≠ 0 →
     0 ≤ e.parent ∧ e.parent < e.id ∧
     (∃ p ∈ s.entries, p.id = e.parent) ∧
     e.name ≠ [] ∧ e.name.contains s.delimiter = false)

/-! ### Claim C9: a live reader blocks writers -/

/-- Claim C9: while the live transaction is a read-only one, requesting a
writeable transaction (directly, or through the `WriteableTransaction`
constructor every write operation uses) fails with `InvalidTransaction`;
the error path returns no replacement manager state, so the reader stays
the active transaction. -/
theorem reader_blocks_writer (m : TxManager)
    (halive : m.txAlive = true) (hro : m.txWriteable = false) :
    getTransaction m true = .error .invalidTransaction ∧
    writeableTransactionBegin m = .error .invalidTransaction := by
  constructor <;> simp [getTransaction, writeableTransactionBegin, halive, hro]

/-- Witness for C9: the manager holding a live deferred transaction. -/
theorem reader_blocks_writer_witness :
    getTransaction { txAlive := true, txWriteable := false } true =
      .error .invalidTransaction ∧
    writeableTransactionBegin { txAlive := true, txWriteable := false } =
      .error .invalidTransaction :=
  reader_blocks_writer { txAlive := true, txWriteable := false } rfl rfl

/-! ### Claim C5: the empty name in read-side APIs -/

/-- Counterexample to claim C5 as stated: `Exists` does not accept the empty
string; on a freshly initialized store (where the root certainly exists)
`Exists("")` fails with `InvalidName` instead of returning true, because
`Exists` parses its argument with `ParseName` unconditionally. -/
theorem exists_empty_name_counterexample :
    existsOp (initialState '.') [] = .error .invalidName := by decide

/-- Claim C5, amended: `HasChild`, `GetChildren` and `GetRevision` accept the
empty string as denoting the root and never fail with `InvalidName` on it,
but `Exists` rejects the empty string with `InvalidName` on every store. -/
theorem empty_name_root_access (s : StoreState) :
    hasChildOp s [] = .ok (hasChildCount s.entries 0) ∧
    getChildrenOp s [] = .ok (getChildEntryNames s.entries 0) ∧
    getRevisionOp s [] ≠ .error .invalidName ∧
    existsOp s [] = .error .invalidName := by
  refine ⟨rfl, rfl, ?_, rfl⟩
  simp only [getRevisionOp, List.isEmpty_nil, if_true]
  cases h : getEntryRevision s.entries 0 with
  | ok v => simp [h, bind, Except.bind, pure, Except.pure]
  | error e =>
    have he : e = .invalidQuery := by
      simp only [getEntryRevision] at h
      cases hf : s.entries.find? (fun e => e.id == 0) <;> rw [hf] at h <;>
        simp_all
    simp [h, he, bind, Except.bind, pure, Except.pure]

/-! ### Claim C4: SetNewDelimiter does not check stored names -/

/-- A store reached from a fresh store by `Create("ab", 7)`: it holds one
non-root entry whose name contains the character `a`. -/
def c4Store : StoreState :=
  { entries := [{ rootEntry with revision := 1 },
      { id := 1, parent := 0, name := ['a', 'b'], revision := 5,
        vtype := .integer, value := .int 7 }],
    delimiter := '.' }

/-- Counterexample to claim C4: the name `"ab"` stored in `c4Store` contains
the character `a`, yet `SetNewDelimiter(a)` succeeds instead of failing
with `InvalidDelimiter`.  The `LIKE` pattern of `IsValidNewDelimiter` is
built with `+`, which SQLite evaluates as numeric addition yielding `0`,
so the check only ever counts entries literally named `"0"` and the
claimed if-and-only-if fails in both directions. -/
theorem setNewDelimiter_skips_name_check :
    createOp (initialState '.') ['a', 'b'] (.int 7) [5] = .ok c4Store ∧
    (c4Store.entries.filter (fun e => e.name.contains 'a')).length = 1 ∧
    setNewDelimiterOp c4Store (openFreshSettings '.') 'a' =
      .ok ({ c4Store with delimiter := 'a' },
        openFreshSettings '.' ++
          [({ name := settingNameDelimiter, value := .str ['a'] } : SettingRow)]) := by
  refine ⟨by decide, by decide, by decide⟩

/-! ### Claim C6: the Settings table accumulates duplicate rows -/

/-- Counterexample to claim C6: starting from the settings written by a fresh
open with delimiter `.`, a successful `SetNewDelimiter(,)` leaves two
`NameDelimiter` rows in the `Settings` table, and reading the setting back
returns the oldest value `.` rather than the most recently written `,`.
The `CREATE TABLE` statement spells `PRIMARYKEY` without a space, so SQLite
parses it as part of the column type and creates no primary key; with no
uniqueness constraint, `INSERT OR REPLACE` always inserts. -/
theorem settings_duplicate_delimiter_rows :
    setNewDelimiterOp (initialState '.') (openFreshSettings '.') ',' =
      .ok ({ initialState '.' with delimiter := ',' },
        openFreshSettings '.' ++
          [({ name := settingNameDelimiter, value := .str [','] } : SettingRow)]) ∧
    ((openFreshSettings '.' ++
        [({ name := settingNameDelimiter, value := .str [','] } : SettingRow)]).filter
      (fun r => r.name == settingNameDelimiter)).length = 2 ∧
    getSettingRow
      (openFreshSettings '.' ++
        [({ name := settingNameDelimiter, value := .str [','] } : SettingRow)])
      settingNameDelimiter = some (.str ['.']) := by
  refine ⟨by decide, by decide, by decide⟩

/-! ### Claim C10: the root row is never reported as a child -/

theorem length_filter_split (l : List Entry) (p q : Entry → Bool) :
    (l.filter p).length =
      (l.filter (fun e => p e && q e)).length +
        (l.filter (fun e => p e && !q e)).length := by
  induction l with
  | nil => simp
  | cons e t ih =>
    by_cases hp : p e
    · by_cases hq : q e <;> simp [List.filter_cons, hp, hq, ih] <;> omega
    · simp [List.filter_cons, hp, ih]

theorem filter_id_length_le_one (l : List Entry) (hnd : (l.map Entry.id).Nodup) (a : Int) :
    (l.filter (fun e => e.id == a)).length ≤ 1 := by
  induction l with
  | nil => simp
  | cons e t ih =>
    simp only [List.map_cons, List.nodup_cons] at hnd
    by_cases h : e.id = a
    · have ht : t.filter (fun x => x.id == a) = [] := by
        rw [List.filter_eq_nil_iff]
        intro x hx hpx
        exact hnd.1 (h ▸ (beq_iff_eq.mp hpx) ▸ List.mem_map_of_mem Entry.id hx)
      simp [List.filter_cons, h, ht]
    · simpa [List.filter_cons, h] using ih hnd.2

/-- On a well-formed state there is exactly one row with id 0. -/
theorem root_row_unique (s : StoreState) (hwf : WF s) :
    (s.entries.filter (fun e => e.id == 0)).length = 1 := by
  obtain ⟨hnd, ⟨r, hr, hr0⟩, -, -⟩ := hwf
  refine Nat.le_antisymm (filter_id_length_le_one _ hnd 0) ?_
  have : r ∈ s.entries.filter (fun e => e.id == 0) :=
    List.mem_filter.mpr ⟨hr, by simp [hr0]⟩
  exact List.length_pos.mpr (List.ne_nil_of_mem this)

/-- Claim C10: the root row never shows up as a child.  On a store holding
only the root, `HasChild("")` is false and `GetChildren("")` is empty; on
every state the id 0 never occurs in a child-id listing; and on every
well-formed state the count compared by `HasChild` is exactly the number
of non-root rows with the given parent, the root row being discounted. -/
theorem root_never_child (s : StoreState) (d : Char) (p : Int) (hwf : WF s) :
    hasChildOp (initialState d) [] = .ok false ∧
    getChildrenOp (initialState d) [] = .ok [] ∧
    (0 : Int) ∉ getChildEntries s.entries p ∧
    (hasChildCount s.entries p = true ↔
      ∃ e ∈ s.entries, e.id ≠ 0 ∧ e.parent = p) := by
  refine ⟨rfl, rfl, ?_, ?_⟩
  · intro hmem
    simp only [getChildEntries, List.mem_map, List.mem_filter] at hmem
    obtain ⟨e, ⟨-, he⟩, hid⟩ := hmem
    simp [hid] at he
  · have hsplit := length_filter_split s.entries
      (fun e => e.parent == p) (fun e => e.id == 0)
    obtain ⟨hnd, hroot, hshape, hrest⟩ := hwf
    by_cases hp : p = 0
    · subst hp
      have hzero : s.entries.filter (fun e => e.parent == 0 && e.id == 0) =
          s.entries.filter (fun e => e.id == 0) := by
        apply List.filter_congr
        intro e he
        cases h0 : (e.id == (0 : Int)) with
        | true => simp [(hshape e he (beq_iff_eq.mp h0)).1]
        | false => simp
      have h1 : (s.entries.filter (fun e => e.id == 0)).length = 1 :=
        root_row_unique s ⟨hnd, hroot, hshape, hrest⟩
      rw [hzero, h1] at hsplit
      simp only [hasChildCount]
      rw [show ((0 : Int) == 0) = true from rfl]
      simp only [if_true]
      rw [hsplit]
      constructor
      · intro hgt
        simp only [decide_eq_true_eq] at hgt
        have : (s.entries.filter (fun e => e.parent == 0 && !(e.id == 0))).length > 0 := by
          omega
        obtain ⟨e, he⟩ := List.exists_mem_of_length_pos this
        have := List.mem_filter.mp he
        refine ⟨e, this.1, ?_, ?_⟩ <;> simp_all
      · rintro ⟨e, he, hid, hpar⟩
        have : e ∈ s.entries.filter (fun e => e.parent == 0 && !(e.id == 0)) :=
          List.mem_filter.mpr ⟨he, by simp [hid, hpar]⟩
        have := List.length_pos.mpr (List.ne_nil_of_mem this)
        simp only [decide_eq_true_eq]
        omega
    · have hzero : s.entries.filter (fun e => e.parent == p && e.id == 0) = [] := by
        rw [List.filter_eq_nil_iff]
        intro e he hc
        simp only [Bool.and_eq_true, beq_iff_eq] at hc
        exact hp ((hshape e he hc.2).1 ▸ hc.1.symm)
      rw [hzero] at hsplit
      simp only [List.length_nil, Nat.zero_add] at hsplit
      simp only [hasChildCount]
      rw [show ((p == (0 : Int))) = false from beq_eq_false_iff_ne.mpr hp]
      simp only [Bool.false_eq_true, if_false]
      rw [hsplit]
      constructor
      · intro hgt
        simp only [decide_eq_true_eq] at hgt
        obtain ⟨e, he⟩ := List.exists_mem_of_length_pos hgt
        have := List.mem_filter.mp he
        refine ⟨e, this.1, ?_, ?_⟩ <;> simp_all
      · rintro ⟨e, he, hid, hpar⟩
        have : e ∈ s.entries.filter (fun e => e.parent == p && !(e.id == 0)) :=
          List.mem_filter.mpr ⟨he, by simp [hid, hpar]⟩
        have := List.length_pos.mpr (List.ne_nil_of_mem this)
        simp only [decide_eq_true_eq]
        omega

/-- Witness for C10 at a concrete well-formed two-entry store. -/
theorem root_never_child_witness :
    WF c4Store ∧
    (hasChildCount c4Store.entries 0 = true ↔
      ∃ e ∈ c4Store.entries, e.id ≠ 0 ∧ e.parent = 0) := by
  have hwf : WF c4Store := by unfold WF; decide
  exact ⟨hwf, (root_never_child c4Store '.' 0 hwf).2.2.2⟩

/-! ### Ancestor chains

Proof infrastructure over the parent links of the `Entries` table: the
ancestor relation obtained by iterating the parent lookup, used to state
reachability (claim C1) and the descendant set of a deleted entry (claim
C7).  `fuel` bounds the chain length; on any table it is enough to take the
number of rows plus one, as proved below. -/

/-- The parent id recorded for `id`, read off the first row carrying it. -/
def parentOf (es : List Entry) (id : Int) : Option Int :=
  (es.find? (fun e => e.id == id)).map (·.parent)

/-- Fuel-bounded ancestor test: `a` is reached from `x` by at least one
upward parent step.  The root (id 0) has no ancestors recorded upward. -/
def isAncestor (es : List Entry) : Nat → Int → Int → Bool
  | 0, _, _ => false
  | f + 1, a, x =>
    if x == 0 then false
    else
      match parentOf es x with
      | none => false
      | some p => p == a || isAncestor es f a p

/-- Proper-ancestor relation: some fuel suffices. -/
def Anc (es : List Entry) (a x : Int) : Prop :=
  ∃ f, isAncestor es f a x = true

/-- Executable ancestor test at the always-sufficient fuel. -/
def ancestorB (es : List Entry) (a x : Int) : Bool :=
  isAncestor es (es.length + 1) a x

/-- All ids are pairwise distinct across rows. -/
def IdsNodup (es : List Entry) : Prop :=
  (es.map Entry.id).Nodup

/-- Every non-root row points to a strictly smaller parent id.  This holds on
every reachable table because SQLite assigns fresh rowids as maximum plus
one while the parent row already exists. -/
def ParentsBelow (es : List Entry) : Prop :=
  ∀ e ∈ es, e.id ≠ 0 → e.parent < e.id

theorem length_filter_mono {l : List Entry} {r q : Entry → Bool}
    (himp : ∀ x, r x = true → q x = true) :
    (l.filter r).length ≤ (l.filter q).length := by
  induction l with
  | nil => simp
  | cons a t ih =>
    cases hra : r a with
    | true =>
      rw [List.filter_cons_of_pos hra, List.filter_cons_of_pos (himp a hra)]
      simpa using ih
    | false =>
      rw [List.filter_cons_of_neg (by simp [hra])]
      cases hqa : q a with
      | true =>
        rw [List.filter_cons_of_pos hqa]
        simp only [List.length_cons]
        omega
      | false =>
        rw [List.filter_cons_of_neg (by simp [hqa])]
        exact ih

theorem length_filter_lt_of_mem {l : List Entry} {e : Entry} {q r : Entry → Bool}
    (he : e ∈ l) (hq : q e = true) (himp : ∀ x, r x = true → q x = true)
    (hnr : r e = false) : (l.filter r).length < (l.filter q).length := by
  induction l with
  | nil => simp at he
  | cons a t ih =>
    rcases List.mem_cons.mp he with rfl | hmem
    · rw [List.filter_cons_of_pos hq, List.filter_cons_of_neg (by simp [hnr])]
      have := @length_filter_mono t r q himp
      simp only [List.length_cons]
      omega
    · cases hra : r a with
      | true =>
        rw [List.filter_cons_of_pos hra, List.filter_cons_of_pos (himp a hra)]
        simpa using ih hmem
      | false =>
        rw [List.filter_cons_of_neg (by simp [hra])]
        cases hqa : q a with
        | true =>
          rw [List.filter_cons_of_pos hqa]
          have := ih hmem
          simp only [List.length_cons]
          omega
        | false =>
          rw [List.filter_cons_of_neg (by simp [hqa])]
          exact ih hmem

theorem parentOf_mem {es : List Entry} {x p : Int} (h : parentOf es x = some p) :
    ∃ e ∈ es, e.id = x ∧ e.parent = p := by
  unfold parentOf at h
  cases hf : es.find? (fun e => e.id == x) with
  | none => rw [hf] at h; simp at h
  | some e =>
    rw [hf] at h
    have hpar : e.parent = p := by simpa using h
    exact ⟨e, List.mem_of_find?_eq_some hf, by simpa using List.find?_some hf, hpar⟩

theorem find?_id_of_mem {es : List Entry} {e : Entry} (hnd : IdsNodup es)
    (he : e ∈ es) : es.find? (fun x => x.id == e.id) = some e := by
  induction es with
  | nil => simp at he
  | cons a t ih =>
    simp only [IdsNodup, List.map_cons, List.nodup_cons] at hnd
    rcases List.mem_cons.mp he with rfl | hmem
    · simp [List.find?_cons_of_pos]
    · have hne : a.id ≠ e.id := fun hcontra =>
        hnd.1 (hcontra ▸ List.mem_map_of_mem Entry.id hmem)
      rw [List.find?_cons_of_neg _ (by simpa using hne)]
      exact ih hnd.2 hmem

theorem parentOf_of_mem {es : List Entry} {e : Entry} (hnd : IdsNodup es)
    (he : e ∈ es) : parentOf es e.id = some e.parent := by
  simp [parentOf, find?_id_of_mem hnd he]

/-- Unfolding characterization of one ancestor step. -/
theorem isAncestor_succ_iff {es : List Entry} {f : Nat} {a x : Int} :
    isAncestor es (f + 1) a x = true ↔
      x ≠ 0 ∧ ∃ p, parentOf es x = some p ∧ (p = a ∨ isAncestor es f a p = true) := by
  simp only [isAncestor]
  cases hx : (x == (0 : Int)) with
  | true =>
    have hx0 : x = 0 := beq_iff_eq.mp hx
    simp [hx0]
  | false =>
    have hxne : x ≠ 0 := by simpa using hx
    simp only [Bool.false_eq_true, if_false]
    cases hp : parentOf es x with
    | none => simp [hxne]
    | some p => simp [hxne, beq_iff_eq]

theorem anc_lt {es : List Entry} (hpb : ParentsBelow es) {f : Nat} {a x : Int}
    (h : isAncestor es f a x = true) : a < x := by
  induction f generalizing x with
  | zero => simp [isAncestor] at h
  | succ f ih =>
    obtain ⟨hx, p, hp, hcase⟩ := isAncestor_succ_iff.mp h
    obtain ⟨e, he, heid, hepar⟩ := parentOf_mem hp
    have hplt : p < x := by
      have := hpb e he (heid ▸ hx)
      omega
    rcases hcase with rfl | h2
    · exact hplt
    · have := ih h2
      omega

theorem anc_mono {es : List Entry} {f g : Nat} {a x : Int} (hfg : f ≤ g)
    (h : isAncestor es f a x = true) : isAncestor es g a x = true := by
  induction f generalizing g x with
  | zero => simp [isAncestor] at h
  | succ f ih =>
    cases g with
    | zero => omega
    | succ g =>
      obtain ⟨hx, p, hp, hcase⟩ := isAncestor_succ_iff.mp h
      refine isAncestor_succ_iff.mpr ⟨hx, p, hp, ?_⟩
      rcases hcase with rfl | h2
      · exact Or.inl rfl
      · exact Or.inr (ih (by omega) h2)

theorem anc_glue {es : List Entry} {f g : Nat} {a b x : Int}
    (h1 : isAncestor es f a x = true) (h2 : isAncestor es g b a = true) :
    isAncestor es (f + g) b x = true := by
  induction f generalizing x with
  | zero => simp [isAncestor] at h1
  | succ f ih =>
    obtain ⟨hx, p, hp, hcase⟩ := isAncestor_succ_iff.mp h1
    rcases hcase with rfl | hrec
    · have : isAncestor es (g + 1) b x = true :=
        isAncestor_succ_iff.mpr ⟨hx, p, hp, Or.inr h2⟩
      exact anc_mono (by omega) this
    · have : isAncestor es (f + g + 1) b x = true :=
        isAncestor_succ_iff.mpr ⟨hx, p, hp, Or.inr (ih hrec)⟩
      exact anc_mono (by omega) this

theorem anc_step {es : List Entry} {x a : Int} (hx : x ≠ 0)
    (hp : parentOf es x = some a) (f : Nat) : isAncestor es (f + 1) a x = true :=
  isAncestor_succ_iff.mpr ⟨hx, a, hp, Or.inl rfl⟩

/-- Fuel sufficiency: any ancestor fact holds at fuel `es.length + 1`,
because chains step through rows of strictly decreasing ids. -/
theorem anc_fuel {es : List Entry} (hpb : ParentsBelow es) {f : Nat} {a x : Int}
    (h : isAncestor es f a x = true) : ancestorB es a x = true := by
  suffices hs : ∀ f x, isAncestor es f a x = true →
      isAncestor es ((es.filter (fun e => decide (e.id < x))).length + 1) a x = true by
    have hfu := hs f x h
    show isAncestor es (es.length + 1) a x = true
    refine anc_mono ?_ hfu
    have := List.length_filter_le (fun e => decide (e.id < x)) es
    omega
  intro f
  induction f with
  | zero => intro x h0; simp [isAncestor] at h0
  | succ f ih =>
    intro x h0
    obtain ⟨hx, p, hp, hcase⟩ := isAncestor_succ_iff.mp h0
    rcases hcase with rfl | hrec
    · exact anc_step hx hp _
    · have hrec2 := ih p hrec
      have hpq : ∃ q, parentOf es p = some q := by
        cases f with
        | zero => simp [isAncestor] at hrec
        | succ g =>
          obtain ⟨-, q, hq, -⟩ := isAncestor_succ_iff.mp hrec
          exact ⟨q, hq⟩
      have hlt : (es.filter (fun e => decide (e.id < p))).length <
          (es.filter (fun e => decide (e.id < x))).length := by
        obtain ⟨ex, hex, hexid, hexpar⟩ := parentOf_mem hp
        have hpx : p < x := by
          have := hpb ex hex (hexid ▸ hx)
          omega
        obtain ⟨qq, hq⟩ := hpq
        obtain ⟨ep, hep, hepid, -⟩ := parentOf_mem hq
        refine length_filter_lt_of_mem hep ?_ ?_ ?_
        · simp only [decide_eq_true_eq]; omega
        · intro e; simp only [decide_eq_true_eq]; omega
        · simp only [decide_eq_false_iff_not]; omega
      have hstep : isAncestor es
          ((es.filter (fun e => decide (e.id < p))).length + 1 + 1) a x = true :=
        isAncestor_succ_iff.mpr ⟨hx, p, hp, Or.inr hrec2⟩
      exact anc_mono (by omega) hstep

theorem anc_irrefl {es : List Entry} (hpb : ParentsBelow es) {a : Int} {f : Nat} :
    isAncestor es f a a = false := by
  cases h : isAncestor es f a a
  · rfl
  · exact absurd (anc_lt hpb h) (lt_irrefl a)
/-! ### Tokenizer facts -/

theorem tokenizeAux_segs (delim : Char) :
    ∀ (s acc : List Char), (∀ c ∈ acc, c ≠ delim) →
      ∀ n ∈ tokenizeAux delim acc s, n ≠ [] ∧ ∀ c ∈ n, c ≠ delim := by
  intro s
  induction s with
  | nil =>
    intro acc hacc n hn
    simp only [tokenizeAux, flushToken] at hn
    by_cases h : acc.isEmpty
    · simp [h] at hn
    · rw [if_neg h] at hn
      rcases List.mem_cons.mp hn with rfl | hfalse
      · refine ⟨by simpa using h, ?_⟩
        intro c hc
        exact hacc c (List.mem_reverse.mp hc)
      · simp at hfalse
  | cons c rest ih =>
    intro acc hacc n hn
    simp only [tokenizeAux] at hn
    by_cases hc : c == delim
    · rw [if_pos hc] at hn
      simp only [flushToken] at hn
      by_cases h : acc.isEmpty
      · rw [if_pos h] at hn
        exact ih [] (by simp) n hn
      · rw [if_neg h] at hn
        rcases List.mem_cons.mp hn with rfl | hmem
        · refine ⟨by simpa using h, ?_⟩
          intro x hx
          exact hacc x (List.mem_reverse.mp hx)
        · exact ih [] (by simp) n hmem
    · rw [if_neg hc] at hn
      refine ih (c :: acc) ?_ n hn
      intro x hx
      rcases List.mem_cons.mp hx with rfl | hmem
      · simpa using hc
      · exact hacc x hmem

/-- Every segment produced by `tokenize` is non-empty and delimiter-free. -/
theorem tokenize_segs {delim : Char} {s n : List Char} (hn : n ∈ tokenize delim s) :
    n ≠ [] ∧ ∀ c ∈ n, c ≠ delim :=
  tokenizeAux_segs delim s [] (by simp) n hn

theorem tokenizeAux_ne_nil (delim : Char) :
    ∀ (s acc : List Char), acc ≠ [] → tokenizeAux delim acc s ≠ [] := by
  intro s
  induction s with
  | nil =>
    intro acc hacc
    simp [tokenizeAux, flushToken, hacc]
  | cons c rest ih =>
    intro acc hacc
    simp only [tokenizeAux]
    by_cases hc : c == delim
    · rw [if_pos hc]
      simp [flushToken, hacc]
    · rw [if_neg hc]
      exact ih (c :: acc) (by simp)

/-- A valid name tokenizes into at least one segment. -/
theorem tokenize_ne_nil {delim : Char} {s : List Char}
    (hv : IsValidName delim s = true) : tokenize delim s ≠ [] := by
  cases s with
  | nil => simp [IsValidName] at hv
  | cons c rest =>
    have hc : ¬(c == delim) = true := by
      simp only [IsValidName, List.isEmpty_cons, Bool.false_eq_true, if_false] at hv
      intro hcd
      rw [show (c :: rest).headD delim = c from rfl] at hv
      simp [hcd] at hv
    simp only [tokenize, tokenizeAux]
    rw [if_neg hc]
    exact tokenizeAux_ne_nil delim rest [c] (by simp)

theorem contains_eq_false_iff {l : List Char} {a : Char} :
    l.contains a = false ↔ ∀ c ∈ l, c ≠ a := by
  induction l with
  | nil => simp
  | cons x t ih =>
    constructor
    · intro h c hc
      simp only [List.contains_cons, Bool.or_eq_false_iff] at h
      rcases List.mem_cons.mp hc with rfl | hm
      · have := h.1; simp at this; exact fun hx => this hx.symm
      · exact ih.mp h.2 c hm
    · intro h
      simp only [List.contains_cons, Bool.or_eq_false_iff]
      refine ⟨?_, ih.mpr fun c hc => h c (List.mem_cons_of_mem x hc)⟩
      have := h x (List.mem_cons_self x t)
      simp [beq_eq_false_iff_ne]
      exact fun hx => this hx.symm

/-! ### Path resolution facts -/

/-- Relational version of a fully successful `GetEntryId` walk: each segment
resolves under the previous id. -/
def ResolvesTo (es : List Entry) : Int → List (List Char) → List Int → Prop
  | _, [], [] => True
  | parent, n :: path, id :: ids => findId es n parent = some id ∧ ResolvesTo es id path ids
  | _, [], _ :: _ => False
  | _, _ :: _, [] => False

theorem resolveIds_full_iff {es : List Entry} :
    ∀ {path : List (List Char)} {parent : Int} {ids : List Int},
      resolveIds es parent path = (ids, []) ↔ ResolvesTo es parent path ids := by
  intro path
  induction path with
  | nil =>
    intro parent ids
    constructor
    · intro h
      simp only [resolveIds] at h
      cases ids with
      | nil => trivial
      | cons i t => simp at h
    · intro h
      cases ids with
      | nil => rfl
      | cons i t => exact absurd h (by simp [ResolvesTo])
  | cons n rest ih =>
    intro parent ids
    constructor
    · intro h
      simp only [resolveIds] at h
      cases hf : findId es n parent with
      | none => rw [hf] at h; simp at h
      | some id =>
        rw [hf] at h
        simp only [Prod.mk.injEq] at h
        cases ids with
        | nil => simp at h
        | cons i t =>
          have h1 : id = i ∧ (resolveIds es id rest).1 = t := by
            have := h.1
            simp only [List.cons.injEq] at this
            exact this
          have h2 := h.2
          obtain ⟨rfl, ht⟩ := h1
          have : resolveIds es id rest = (t, []) := Prod.ext ht h2
          exact ⟨hf, ih.mp this⟩
    · intro h
      cases ids with
      | nil => exact absurd h (by simp [ResolvesTo])
      | cons i t =>
        obtain ⟨hf, hrest⟩ := h
        have := ih.mpr hrest
        simp only [resolveIds, hf, this]

theorem findId_mem {es : List Entry} {n : List Char} {p id : Int}
    (h : findId es n p = some id) :
    ∃ e ∈ es, e.id = id ∧ e.name = n ∧ e.parent = p := by
  unfold findId at h
  cases hf : es.find? (fun e => e.name == n && e.parent == p) with
  | none => rw [hf] at h; simp at h
  | some e =>
    rw [hf] at h
    have heid : e.id = id := by simpa using h
    have hprop := List.find?_some hf
    simp only [Bool.and_eq_true, beq_iff_eq] at hprop
    exact ⟨e, List.mem_of_find?_eq_some hf, heid, hprop.1, hprop.2⟩

/-- One resolution step relation: the child row exists, carries the parent
link, and has the larger id. -/
def StepRel (es : List Entry) (a b : Int) : Prop :=
  b ≠ 0 ∧ a < b ∧ parentOf es b = some a ∧ ∃ e ∈ es, e.id = b

theorem resolved_chain_steps {es : List Entry} (hnd : IdsNodup es)
    (hroot0 : ∀ e ∈ es, e.id = 0 → e.name = []) (hpb : ParentsBelow es) :
    ∀ {path : List (List Char)} {parent : Int} {ids : List Int},
      ResolvesTo es parent path ids → (∀ n ∈ path, n ≠ []) →
      List.Chain (StepRel es) parent ids := by
  intro path
  induction path with
  | nil =>
    intro parent ids h hsegs
    cases ids with
    | nil => exact List.Chain.nil
    | cons i t => exact absurd h (by simp [ResolvesTo])
  | cons n rest ih =>
    intro parent ids h hsegs
    cases ids with
    | nil => exact absurd h (by simp [ResolvesTo])
    | cons i t =>
      obtain ⟨hf, hrest⟩ := h
      obtain ⟨e, he, heid, hename, hepar⟩ := findId_mem hf
      have hne0 : e.id ≠ 0 := by
        intro h0
        exact (hsegs n (by simp)) (hename ▸ hroot0 e he h0)
      have hstep : StepRel es parent i := by
        refine ⟨heid ▸ hne0, ?_, ?_, e, he, heid⟩
        · have := hpb e he hne0
          omega
        · have := parentOf_of_mem hnd he
          rw [heid, hepar] at this
          exact this
      exact List.Chain.cons hstep
        (ih hrest fun m hm => hsegs m (List.mem_cons_of_mem n hm))

/-- The ids of a resolved chain are strictly increasing from the start
parent; in particular they are positive, distinct and do not contain the
root when resolution starts at the root. -/
theorem resolved_chain_lt {es : List Entry} {parent : Int} {ids : List Int}
    (h : List.Chain (StepRel es) parent ids) :
    List.Chain (· < ·) parent ids :=
  List.Chain.imp (fun _ _ hs => hs.2.1) h

theorem chain_lt_pairwise {parent : Int} {ids : List Int}
    (h : List.Chain (· < ·) parent ids) : (parent :: ids).Pairwise (· < ·) :=
  List.chain_iff_pairwise.mp h

/-! ### Revision bump facts -/

/-- Pure form of one revision bump. -/
def bumpAll (id : Int) (es : List Entry) : List Entry :=
  es.map (fun x => if x.id == id then { x with revision := x.revision + 1 } else x)

theorem bumpRevision_eq {es : List Entry} {id : Int} (hnd : IdsNodup es)
    (hex : ∃ e ∈ es, e.id = id) : bumpRevision es id = some (bumpAll id es) := by
  obtain ⟨e, he, heid⟩ := hex
  subst heid
  unfold bumpRevision
  rw [find?_id_of_mem hnd he]
  show some (es.map fun x =>
      if x.id == e.id then { x with revision := e.revision + 1 } else x) =
    some (bumpAll e.id es)
  unfold bumpAll
  congr 1
  apply List.map_congr_left
  intro x hx
  by_cases hxid : x.id = e.id
  · have : x = e := List.inj_on_of_nodup_map hnd hx he hxid
    subst this
    simp
  · simp [hxid]

theorem bumpAll_ids (id : Int) (es : List Entry) :
    (bumpAll id es).map Entry.id = es.map Entry.id := by
  unfold bumpAll
  rw [List.map_map]
  apply List.map_congr_left
  intro x hx
  by_cases h : x.id = id <;> simp [h]

theorem bumpAll_mem_id {es : List Entry} {id i : Int} (hex : ∃ e ∈ es, e.id = i) :
    ∃ e ∈ bumpAll id es, e.id = i := by
  obtain ⟨e, he, hei⟩ := hex
  unfold bumpAll
  refine ⟨if e.id == id then { e with revision := e.revision + 1 } else e,
    List.mem_map_of_mem _ he, ?_⟩
  by_cases h : e.id = id
  · rw [if_pos (by simpa using h)]
    exact hei
  · rw [if_neg (by simpa using h)]
    exact hei

/-- Folding the revision update over a list of ids adds to every row exactly
the number of occurrences of its id. -/
theorem foldlM_bump_spec {ids : List Int} :
    ∀ {es : List Entry}, IdsNodup es → (∀ i ∈ ids, ∃ e ∈ es, e.id = i) →
      ids.foldlM bumpRevision es =
        some (es.map (fun e => { e with revision := e.revision + (ids.count e.id : Int) })) := by
  induction ids with
  | nil =>
    intro es hnd hex
    simp only [List.foldlM_nil]
    congr 1
    have h1 : es.map (fun e =>
        { e with revision := e.revision + ((([] : List Int).count e.id : Nat) : Int) }) =
        es.map id :=
      List.map_congr_left (fun e he => by simp)
    rw [h1, List.map_id]
  | cons i rest ih =>
    intro es hnd hex
    simp only [List.foldlM_cons]
    rw [bumpRevision_eq hnd (hex i (by simp))]
    have hnd2 : IdsNodup (bumpAll i es) := by
      unfold IdsNodup
      rw [bumpAll_ids]
      exact hnd
    have hex2 : ∀ j ∈ rest, ∃ e ∈ bumpAll i es, e.id = j := fun j hj =>
      bumpAll_mem_id (hex j (List.mem_cons_of_mem i hj))
    rw [show ((some (bumpAll i es) >>= fun s => List.foldlM bumpRevision s rest) =
        List.foldlM bumpRevision (bumpAll i es) rest) from rfl]
    rw [ih hnd2 hex2]
    congr 1
    unfold bumpAll
    rw [List.map_map]
    apply List.map_congr_left
    intro x hx
    simp only [Function.comp]
    by_cases h : x.id = i
    · rw [if_pos (by simpa using h)]
      have hcount : (((i :: rest).count x.id : Nat) : Int) = (rest.count x.id : Int) + 1 := by
        simp [List.count_cons, h]
      show ({ x with revision := (x.revision + 1) + ((rest.count x.id : Nat) : Int) } : Entry) =
        { x with revision := x.revision + (((i :: rest).count x.id : Nat) : Int) }
      rw [hcount]
      congr 1
      omega
    · rw [if_neg (by simpa using h)]
      have hcount : ((i :: rest).count x.id : Int) = (rest.count x.id : Int) := by
        have hne : (x.id == i) = false := by simpa using h
        have hne2 : (i == x.id) = false := by
          simpa using (show ¬ i = x.id from fun hh => h hh.symm)
        simp [List.count_cons, hne, hne2]
      rw [hcount]

/-- Store::UpdateRevision adds one to the revision of the root and of every
id in the chain (counted with multiplicity), leaving all other rows
untouched. -/
theorem updateRevision_spec {es : List Entry} {ids : List Int} (hnd : IdsNodup es)
    (hroot : ∃ e ∈ es, e.id = 0) (hids : ∀ i ∈ ids, ∃ e ∈ es, e.id = i) :
    updateRevision es ids =
      some (es.map (fun e =>
        { e with revision := e.revision + (((0 :: ids).count e.id : Nat) : Int) })) := by
  unfold updateRevision
  rw [bumpRevision_eq hnd hroot]
  have hnd2 : IdsNodup (bumpAll 0 es) := by
    unfold IdsNodup; rw [bumpAll_ids]; exact hnd
  have hex2 : ∀ j ∈ ids, ∃ e ∈ bumpAll 0 es, e.id = j := fun j hj =>
    bumpAll_mem_id (hids j hj)
  rw [show ((some (bumpAll 0 es) >>= fun s => List.foldlM bumpRevision s ids) =
      List.foldlM bumpRevision (bumpAll 0 es) ids) from rfl]
  rw [foldlM_bump_spec hnd2 hex2]
  congr 1
  unfold bumpAll
  rw [List.map_map]
  apply List.map_congr_left
  intro x hx
  simp only [Function.comp]
  by_cases h : x.id = 0
  · rw [if_pos (by simpa using h)]
    have hcount : (((0 :: ids).count x.id : Nat) : Int) = (ids.count x.id : Int) + 1 := by
      simp [List.count_cons, h]
    show ({ x with revision := (x.revision + 1) + ((ids.count x.id : Nat) : Int) } : Entry) =
      { x with revision := x.revision + (((0 :: ids).count x.id : Nat) : Int) }
    rw [hcount]
    congr 1
    omega
  · rw [if_neg (by simpa using h)]
    have hcount : (((0 :: ids).count x.id : Nat) : Int) = (ids.count x.id : Int) := by
      have hne : (x.id == (0 : Int)) = false := by simpa using h
      have hne2 : ((0 : Int) == x.id) = false := by
        simpa using (show ¬ (0 : Int) = x.id from fun hh => h hh.symm)
      simp [List.count_cons, hne, hne2]
    rw [hcount]

/-! ### Reading revisions through row maps -/

theorem resolvesTo_mem {es : List Entry} :
    ∀ {path : List (List Char)} {parent : Int} {ids : List Int},
      ResolvesTo es parent path ids → ∀ i ∈ ids, ∃ e ∈ es, e.id = i := by
  intro path
  induction path with
  | nil =>
    intro parent ids h i hi
    cases ids with
    | nil => simp at hi
    | cons a t => exact absurd h (by simp [ResolvesTo])
  | cons n rest ih =>
    intro parent ids h i hi
    cases ids with
    | nil => simp at hi
    | cons a t =>
      obtain ⟨hf, hrest⟩ := h
      rcases List.mem_cons.mp hi with rfl | hm
      · obtain ⟨e, he, heid, -, -⟩ := findId_mem hf
        exact ⟨e, he, heid⟩
      · exact ih hrest i hm

theorem idsNodup_map {es : List Entry} {f : Entry → Entry}
    (hid : ∀ e, (f e).id = e.id) (hnd : IdsNodup es) : IdsNodup (es.map f) := by
  unfold IdsNodup
  rw [List.map_map]
  have : (Entry.id ∘ f) = Entry.id := funext hid
  rw [this]
  exact hnd

theorem mem_id_map {es : List Entry} {f : Entry → Entry}
    (hid : ∀ e, (f e).id = e.id) {i : Int} (hex : ∃ e ∈ es, e.id = i) :
    ∃ e ∈ es.map f, e.id = i := by
  obtain ⟨e, he, hei⟩ := hex
  exact ⟨f e, List.mem_map_of_mem f he, (hid e).trans hei⟩

theorem getEntryRevision_ok {es : List Entry} {i : Int}
    (hex : ∃ e ∈ es, e.id = i) : ∃ r, getEntryRevision es i = .ok r := by
  obtain ⟨e, he, hei⟩ := hex
  unfold getEntryRevision
  cases hf : es.find? (fun x => x.id == i) with
  | none =>
    exfalso
    have := List.find?_eq_none.mp hf e he
    simp [hei] at this
  | some a => exact ⟨a.revision, rfl⟩

theorem getEntryRevision_map {es : List Entry} {f : Entry → Entry}
    (hid : ∀ e, (f e).id = e.id) (hrev : ∀ e, (f e).revision = e.revision) (i : Int) :
    getEntryRevision (es.map f) i = getEntryRevision es i := by
  unfold getEntryRevision
  rw [List.find?_map]
  have hpred : ((fun e : Entry => e.id == i) ∘ f) = fun e : Entry => e.id == i := by
    funext e
    simp [Function.comp, hid]
  rw [hpred]
  cases hf : es.find? (fun e => e.id == i) with
  | none => rfl
  | some e => simp [hrev]

theorem getEntryRevision_bumped {es : List Entry} {c : Int → Int} {i r : Int}
    (h : getEntryRevision es i = .ok r) :
    getEntryRevision (es.map (fun e => { e with revision := e.revision + c e.id })) i =
      .ok (r + c i) := by
  unfold getEntryRevision at h ⊢
  rw [List.find?_map]
  have hpred : ((fun e : Entry => e.id == i) ∘
      (fun e => { e with revision := e.revision + c e.id })) =
      fun e : Entry => e.id == i := by
    funext e
    rfl
  rw [hpred]
  cases hf : es.find? (fun e => e.id == i) with
  | none => rw [hf] at h; simp at h
  | some e =>
    rw [hf] at h
    have hrev : e.revision = r := by simpa using h
    have heid : e.id = i := by simpa using List.find?_some hf
    simp [hrev, heid]

theorem writeEntryValue_as_map (es : List Entry) (id : Int) (t : ValueType) (v : Value) :
    writeEntryValue es id t v =
      es.map (fun e => if e.id == id then { e with vtype := t, value := v } else e) := rfl

theorem writeEntryValue_id (id : Int) (t : ValueType) (v : Value) (e : Entry) :
    (if e.id == id then { e with vtype := t, value := v } else e).id = e.id := by
  by_cases h : e.id = id <;> simp [h]

theorem writeEntryValue_revision (id : Int) (t : ValueType) (v : Value) (e : Entry) :
    (if e.id == id then { e with vtype := t, value := v } else e).revision = e.revision := by
  by_cases h : e.id = id <;> simp [h]

/-! ### Claim C2: Set bumps the root and the whole resolved chain by one -/

/-- Claim C2: on a well-formed store, a successful `Set(name, value)` leaves
the revision of the root and of every entry on the resolved id chain
(from the root child down to and including the named entry) exactly one
greater than the value stored before the call. -/
theorem set_bumps_chain_revisions (s : StoreState) (name : List Char) (v : Value)
    (s2 : StoreState) (hwf : WF s) (hset : setOp s name v = .ok s2) :
    ∃ path ids,
      parseName s name = .ok path ∧
      getEntryIdE s.entries path = .ok ids ∧
      ∀ i ∈ (0 :: ids), ∃ r, getEntryRevision s.entries i = .ok r ∧
        getEntryRevision s2.entries i = .ok (r + 1) := by
  obtain ⟨hnd, hroot, hshape, hrest⟩ := hwf
  unfold setOp at hset
  cases hp : parseName s name with
  | error e => rw [hp] at hset; simp [bind, Except.bind] at hset
  | ok path =>
    rw [hp] at hset
    simp only [bind, Except.bind] at hset
    cases hq : getEntryIdE s.entries path with
    | error e => rw [hq] at hset; simp at hset
    | ok ids =>
      rw [hq] at hset
      have hset2 : (match updateRevision
            (writeEntryValue s.entries (ids.getLastD 0) v.vtype v) ids with
          | none => (Except.error Err.invalidQuery : Except Err StoreState)
          | some es2 => pure { s with entries := es2 }) = Except.ok s2 := hset
      refine ⟨path, ids, rfl, hq, ?_⟩
      have hres : ResolvesTo s.entries 0 path ids := by
        have : resolveIds s.entries 0 path = (ids, []) := by
          unfold getEntryIdE at hq
          by_cases hemp : (resolveIds s.entries 0 path).2.isEmpty
          · rw [if_pos hemp] at hq
            have h1 : (resolveIds s.entries 0 path).1 = ids := by simpa using hq
            have h2 : (resolveIds s.entries 0 path).2 = [] := by
              simpa using hemp
            exact Prod.ext h1 h2
          · rw [if_neg hemp] at hq
            simp at hq
        exact resolveIds_full_iff.mp this
      have hsegs : ∀ n ∈ path, n ≠ [] := by
        intro n hn
        have hpath : path = tokenize s.delimiter name := by
          unfold parseName at hp
          by_cases hv : IsValidName s.delimiter name
          · rw [if_pos hv] at hp
            simpa using hp.symm
          · rw [if_neg hv] at hp
            simp at hp
        exact (tokenize_segs (hpath ▸ hn)).1
      have hchain := resolved_chain_steps hnd (fun e he h0 => (hshape e he h0).2)
        (fun e he h0 => (hrest e he h0).2.1) hres hsegs
      have hpw : (0 :: ids).Pairwise (· < ·) :=
        chain_lt_pairwise (resolved_chain_lt hchain)
      have hidsnd : (0 :: ids).Nodup := hpw.imp fun hlt => ne_of_lt hlt
      have hmem : ∀ i ∈ ids, ∃ e ∈ s.entries, e.id = i := resolvesTo_mem hres
      -- the written table before revision update
      set es1 := writeEntryValue s.entries (ids.getLastD 0) v.vtype v with hes1
      have hnd1 : IdsNodup es1 := by
        rw [hes1, writeEntryValue_as_map]
        exact idsNodup_map (writeEntryValue_id _ _ _) hnd
      have hroot1 : ∃ e ∈ es1, e.id = 0 := by
        rw [hes1, writeEntryValue_as_map]
        exact mem_id_map (writeEntryValue_id _ _ _) hroot
      have hmem1 : ∀ i ∈ ids, ∃ e ∈ es1, e.id = i := by
        intro i hi
        rw [hes1, writeEntryValue_as_map]
        exact mem_id_map (writeEntryValue_id _ _ _) (hmem i hi)
      have hupd := updateRevision_spec hnd1 hroot1 hmem1
      rw [hupd] at hset2
      have hs2 : s2 = { s with entries := es1.map (fun e =>
          { e with revision := e.revision + (((0 :: ids).count e.id : Nat) : Int) }) } := by
        have hset3 : (pure { s with entries := es1.map (fun e =>
            { e with revision := e.revision + (((0 :: ids).count e.id : Nat) : Int) }) } :
            Except Err StoreState) = Except.ok s2 := hset2
        simpa [pure, Except.pure] using hset3.symm
      intro i hi
      have hexi : ∃ e ∈ s.entries, e.id = i := by
        rcases List.mem_cons.mp hi with rfl | hm
        · exact hroot
        · exact hmem i hm
      obtain ⟨r, hr⟩ := getEntryRevision_ok hexi
      refine ⟨r, hr, ?_⟩
      have hr1 : getEntryRevision es1 i = .ok r := by
        rw [hes1, writeEntryValue_as_map,
          getEntryRevision_map (writeEntryValue_id _ _ _) (writeEntryValue_revision _ _ _)]
        exact hr
      have hcount : (0 :: ids).count i = 1 := List.count_eq_one_of_mem hidsnd hi
      have := @getEntryRevision_bumped es1
        (fun j => (((0 :: ids).count j : Nat) : Int)) i r hr1
      rw [hs2]
      simpa [hcount] using this

/-- The state after `Set("ab", 9)` on `c4Store`. -/
def c2After : StoreState :=
  { entries := [{ rootEntry with revision := 2 },
      { id := 1, parent := 0, name := ['a', 'b'], revision := 6,
        vtype := .integer, value := .int 9 }],
    delimiter := '.' }

/-- Witness for C2 at a concrete store and Set call. -/
theorem set_bumps_chain_revisions_witness :
    ∃ path ids,
      parseName c4Store ['a', 'b'] = .ok path ∧
      getEntryIdE c4Store.entries path = .ok ids ∧
      ∀ i ∈ (0 :: ids), ∃ r, getEntryRevision c4Store.entries i = .ok r ∧
        getEntryRevision c2After.entries i = .ok (r + 1) :=
  set_bumps_chain_revisions c4Store ['a', 'b'] (.int 9) c2After
    (by unfold WF; decide) (by decide)

/-! ### Insert and resolution stability facts -/

theorem dropLast_map_entry (l : List Entry) (f : Entry → Entry) :
    (l.map f).dropLast = l.dropLast.map f := by
  induction l with
  | nil => simp
  | cons a t ih =>
    cases t with
    | nil => simp
    | cons b u => simpa using ih

theorem getLastD_snoc (l : List Int) (a d : Int) : (l ++ [a]).getLastD d = a := by
  induction l generalizing d with
  | nil => rfl
  | cons x t ih =>
    rw [List.cons_append, List.getLastD_cons, ih]

theorem getLastD_mem {l : List Int} (hne : l ≠ []) (d : Int) : l.getLastD d ∈ l := by
  rw [List.getLastD_eq_getLast?, List.getLast?_eq_getLast _ hne]
  exact List.getLast_mem hne

theorem findId_append_some {es new : List Entry} {n : List Char} {p id : Int}
    (h : findId es n p = some id) : findId (es ++ new) n p = some id := by
  unfold findId at h ⊢
  rw [List.find?_append]
  cases hf : es.find? (fun e => e.name == n && e.parent == p) with
  | none => rw [hf] at h; simp at h
  | some e => rw [hf] at h; simpa using h

theorem findId_map_rev {es : List Entry} {f : Entry → Entry}
    (hid : ∀ e, (f e).id = e.id) (hname : ∀ e, (f e).name = e.name)
    (hpar : ∀ e, (f e).parent = e.parent) (n : List Char) (p : Int) :
    findId (es.map f) n p = findId es n p := by
  unfold findId
  rw [List.find?_map]
  have hpred : ((fun e : Entry => e.name == n && e.parent == p) ∘ f) =
      fun e : Entry => e.name == n && e.parent == p := by
    funext e
    simp [Function.comp, hname, hpar]
  rw [hpred]
  cases es.find? (fun e => e.name == n && e.parent == p) <;> simp [hid]

theorem resolvesTo_append {es new : List Entry} :
    ∀ {path : List (List Char)} {parent : Int} {ids : List Int},
      ResolvesTo es parent path ids → ResolvesTo (es ++ new) parent path ids := by
  intro path
  induction path with
  | nil =>
    intro parent ids h
    cases ids with
    | nil => trivial
    | cons a t => exact absurd h (by simp [ResolvesTo])
  | cons n rest ih =>
    intro parent ids h
    cases ids with
    | nil => exact absurd h (by simp [ResolvesTo])
    | cons a t => exact ⟨findId_append_some h.1, ih h.2⟩

theorem resolvesTo_map_rev {es : List Entry} {f : Entry → Entry}
    (hid : ∀ e, (f e).id = e.id) (hname : ∀ e, (f e).name = e.name)
    (hpar : ∀ e, (f e).parent = e.parent) :
    ∀ {path : List (List Char)} {parent : Int} {ids : List Int},
      ResolvesTo es parent path ids → ResolvesTo (es.map f) parent path ids := by
  intro path
  induction path with
  | nil =>
    intro parent ids h
    cases ids with
    | nil => trivial
    | cons a t => exact absurd h (by simp [ResolvesTo])
  | cons n rest ih =>
    intro parent ids h
    cases ids with
    | nil => exact absurd h (by simp [ResolvesTo])
    | cons a t =>
      refine ⟨?_, ih h.2⟩
      rw [findId_map_rev hid hname hpar]
      exact h.1

theorem resolvesTo_take {es : List Entry} :
    ∀ {path : List (List Char)} {parent : Int} {ids : List Int} (k : Nat),
      ResolvesTo es parent path ids → ResolvesTo es parent (path.take k) (ids.take k) := by
  intro path
  induction path with
  | nil =>
    intro parent ids k h
    cases ids with
    | nil => simp [ResolvesTo]
    | cons a t => exact absurd h (by simp [ResolvesTo])
  | cons n rest ih =>
    intro parent ids k h
    cases ids with
    | nil => exact absurd h (by simp [ResolvesTo])
    | cons a t =>
      cases k with
      | zero => trivial
      | succ k2 => exact ⟨h.1, ih k2 h.2⟩

theorem resolvesTo_glue {es : List Entry} :
    ∀ {p1 : List (List Char)} {ids1 : List Int} {parent : Int}
      {p2 : List (List Char)} {ids2 : List Int},
      ResolvesTo es parent p1 ids1 →
      ResolvesTo es (ids1.getLastD parent) p2 ids2 →
      ResolvesTo es parent (p1 ++ p2) (ids1 ++ ids2) := by
  intro p1
  induction p1 with
  | nil =>
    intro ids1 parent p2 ids2 h1 h2
    cases ids1 with
    | nil => simpa using h2
    | cons a t => exact absurd h1 (by simp [ResolvesTo])
  | cons n rest ih =>
    intro ids1 parent p2 ids2 h1 h2
    cases ids1 with
    | nil => exact absurd h1 (by simp [ResolvesTo])
    | cons a t =>
      refine ⟨h1.1, ih h1.2 ?_⟩
      rw [List.getLastD_cons] at h2
      exact h2

/-- Partial resolution: the path splits into the resolved prefix and the rest,
the prefix resolves to the returned chain, and when something is left the
first unresolved segment has no row under the last resolved id. -/
theorem resolveIds_split {es : List Entry} :
    ∀ (path : List (List Char)) (parent : Int),
      ∃ pre, path = pre ++ (resolveIds es parent path).2 ∧
        ResolvesTo es parent pre (resolveIds es parent path).1 ∧
        ((resolveIds es parent path).2 ≠ [] →
          findId es ((resolveIds es parent path).2.headD [])
            ((resolveIds es parent path).1.getLastD parent) = none) := by
  intro path
  induction path with
  | nil =>
    intro parent
    exact ⟨[], by simp [resolveIds], trivial, by simp [resolveIds]⟩
  | cons n rest ih =>
    intro parent
    cases hf : findId es n parent with
    | none =>
      have hr : resolveIds es parent (n :: rest) = ([], n :: rest) := by
        simp [resolveIds, hf]
      refine ⟨[], by rw [hr]; rfl, by rw [hr]; trivial, ?_⟩
      rw [hr]
      intro hne
      exact hf
    | some id =>
      have hr : resolveIds es parent (n :: rest) =
          (id :: (resolveIds es id rest).1, (resolveIds es id rest).2) := by
        simp [resolveIds, hf]
      obtain ⟨pre2, hsplit, hres, hstop⟩ := ih id
      refine ⟨n :: pre2, ?_, ?_, ?_⟩
      · rw [hr, List.cons_append]
        exact congrArg (n :: ·) hsplit
      · rw [hr]
        show findId es n parent = some id ∧
          ResolvesTo es id pre2 (resolveIds es id rest).1
        exact ⟨hf, hres⟩
      · rw [hr]
        intro hne
        rw [List.getLastD_cons]
        exact hstop hne

/-! ### Fresh ids and well-formed inserts -/

theorem foldl_max_init_le (l : List Int) : ∀ a : Int, a ≤ l.foldl max a := by
  induction l with
  | nil => intro a; simp
  | cons x t ih =>
    intro a
    calc a ≤ max a x := le_max_left a x
    _ ≤ t.foldl max (max a x) := ih (max a x)

theorem mem_le_foldl_max (l : List Int) : ∀ x ∈ l, ∀ a : Int, x ≤ l.foldl max a := by
  induction l with
  | nil => intro x hx; simp at hx
  | cons y t ih =>
    intro x hx a
    rcases List.mem_cons.mp hx with rfl | hm
    · calc x ≤ max a x := le_max_right a x
      _ ≤ t.foldl max (max a x) := foldl_max_init_le t (max a x)
    · exact ih x hm (max a y)

theorem freshId_gt {es : List Entry} : ∀ e ∈ es, e.id < freshId es := by
  intro e he
  have h1 : e.id ≤ (es.map (fun x => x.id)).foldl max 0 :=
    mem_le_foldl_max _ e.id (List.mem_map_of_mem (fun x => x.id) he) 0
  unfold freshId
  omega

theorem freshId_pos (es : List Entry) : 0 < freshId es := by
  have h1 : (0 : Int) ≤ (es.map (fun x => x.id)).foldl max 0 :=
    foldl_max_init_le (es.map (fun x => x.id)) 0
  unfold freshId
  omega

/-- The structural facts needed while rows are inserted: distinct ids, a root
row with parent 0, and parents below ids. -/
def TableInv (es : List Entry) : Prop :=
  IdsNodup es ∧ (∃ e ∈ es, e.id = 0) ∧ (∀ e ∈ es, e.id = 0 → e.parent = 0) ∧
  (∀ e ∈ es, e.id ≠ 0 → 0 ≤ e.parent ∧ e.parent < e.id)

theorem tableInv_of_wf {s : StoreState} (hwf : WF s) : TableInv s.entries := by
  obtain ⟨hnd, hroot, hshape, hrest⟩ := hwf
  exact ⟨hnd, hroot, fun e he h0 => (hshape e he h0).1,
    fun e he h0 => ⟨(hrest e he h0).1, (hrest e he h0).2.1⟩⟩

theorem tableInv_ids_nonneg {es : List Entry} (hinv : TableInv es) :
    ∀ e ∈ es, 0 ≤ e.id := by
  intro e he
  by_cases h0 : e.id = 0
  · omega
  · have := hinv.2.2.2 e he h0
    omega

/-- The row built by `insertEntry` for a fresh insert. -/
def newEntry (es : List Entry) (p : Int) (n : List Char) (t : ValueType)
    (rev : Int) (v : Value) : Entry :=
  { id := freshId es, parent := p, name := n, revision := rev, vtype := t, value := v }

theorem insertEntry_of_findId_none {es : List Entry} {n : List Char} {p : Int}
    (t : ValueType) (rev : Int) (v : Value) (h : findId es n p = none) :
    insertEntry es p n t rev v = some (es ++ [newEntry es p n t rev v]) := by
  have hfind : es.find? (fun e => e.name == n && e.parent == p) = none := by
    unfold findId at h
    cases hf : es.find? (fun e => e.name == n && e.parent == p) with
    | none => rfl
    | some a => rw [hf] at h; simp at h
  unfold insertEntry
  rw [if_neg]
  · rfl
  · simp only [Bool.not_eq_true, List.any_eq_false]
    intro e he
    have := List.find?_eq_none.mp hfind e he
    simpa using this

theorem tableInv_insert {es : List Entry} {p : Int} {n : List Char} {t : ValueType}
    {rev : Int} {v : Value} (hinv : TableInv es)
    (hp : p = 0 ∨ ∃ e ∈ es, e.id = p) :
    TableInv (es ++ [newEntry es p n t rev v]) := by
  unfold newEntry
  obtain ⟨hnd, hroot, hshape, hpar⟩ := hinv
  have hfresh : ∀ e ∈ es, e.id < freshId es := freshId_gt
  have hppos : 0 ≤ p := by
    rcases hp with rfl | ⟨e, he, rfl⟩
    · omega
    · exact tableInv_ids_nonneg ⟨hnd, hroot, hshape, hpar⟩ e he
  have hplt : p < freshId es := by
    rcases hp with rfl | ⟨e, he, rfl⟩
    · exact freshId_pos es
    · exact hfresh e he
  refine ⟨?_, ?_, ?_, ?_⟩
  · unfold IdsNodup
    rw [List.map_append]
    simp only [List.map_cons, List.map_nil]
    rw [List.nodup_append]
    refine ⟨hnd, List.nodup_singleton _, ?_⟩
    intro x hx hy
    simp only [List.mem_singleton] at hy
    obtain ⟨e, he, hei⟩ := List.mem_map.mp hx
    have := hfresh e he
    simp only [hy] at *
    omega
  · obtain ⟨r, hr, hr0⟩ := hroot
    exact ⟨r, List.mem_append_left _ hr, hr0⟩
  · intro e he h0
    rcases List.mem_append.mp he with hm | hm
    · exact hshape e hm h0
    · simp only [List.mem_singleton] at hm
      subst hm
      simp only at h0
      have := freshId_pos es
      omega
  · intro e he h0
    rcases List.mem_append.mp he with hm | hm
    · exact hpar e hm h0
    · simp only [List.mem_singleton] at hm
      subst hm
      simp only
      omega

theorem findId_append_cons {es tail : List Entry} {n : List Char} {p : Int}
    {e : Entry} (h : findId es n p = none) (hm : e.name = n) (hp : e.parent = p) :
    findId (es ++ e :: tail) n p = some e.id := by
  have hfind : es.find? (fun x => x.name == n && x.parent == p) = none := by
    unfold findId at h
    cases hf : es.find? (fun x => x.name == n && x.parent == p) with
    | none => rfl
    | some a => rw [hf] at h; simp at h
  unfold findId
  rw [List.find?_append, hfind, Option.none_or]
  have hhead : List.find? (fun x => x.name == n && x.parent == p) (e :: tail) =
      some e :=
    List.find?_cons_of_pos _ (by simp [hm, hp])
  rw [hhead]
  rfl

theorem findId_eq_none {es : List Entry} {n : List Char} {p : Int}
    (h : ∀ e ∈ es, e.parent ≠ p) : findId es n p = none := by
  unfold findId
  rw [List.find?_eq_none.mpr]
  · rfl
  · intro e he
    simp only [Bool.and_eq_true, beq_iff_eq, not_and]
    exact fun _ => h e he

/-- Specification of the segment walk of `CreateEntry` (part_002 lines 831 to
852): on a structurally sound table whose first missing segment has no row
under the start parent, the walk appends exactly one fresh row per segment;
every row but the last carries the default payload `(Integer, 0)`, the last
carries the caller payload, the new rows resolve as a chain below the start
parent, and the structural invariant is preserved. -/
theorem createChain_spec :
    ∀ (segs : List (List Char)) (es : List Entry) (parentPath : List Int)
      (t : ValueType) (v : Value) (revs : List Int),
      TableInv es → segs ≠ [] →
      findId es (segs.headD []) (parentPath.getLastD 0) = none →
      (parentPath.getLastD 0 = 0 ∨ ∃ e ∈ es, e.id = parentPath.getLastD 0) →
      ∃ newRows,
        createChain es parentPath segs t v revs = some (es ++ newRows) ∧
        newRows.map (fun e => e.name) = segs ∧
        (∀ e ∈ newRows.dropLast, e.vtype = .integer ∧ e.value = .int 0) ∧
        (∀ e, newRows.getLast? = some e → e.vtype = t ∧ e.value = v) ∧
        ResolvesTo (es ++ newRows) (parentPath.getLastD 0) segs
          (newRows.map (fun e => e.id)) ∧
        TableInv (es ++ newRows) ∧
        (∀ e ∈ newRows, ∃ q ∈ es ++ newRows, q.id = e.parent) ∧
        (∀ e ∈ newRows, ∀ e0 ∈ es, e0.id < e.id) := by
  intro segs
  induction segs with
  | nil => intro es pp t v revs hinv hne; exact absurd rfl hne
  | cons n rest ih =>
    intro es pp t v revs hinv hne hstop hpar
    have hp0 : (n :: rest).headD [] = n := rfl
    rw [hp0] at hstop
    have hparmem : ∀ (tbl : List Entry), es.Sublist tbl →
        ∃ q ∈ tbl, q.id = pp.getLastD 0 := by
      intro tbl hsub
      rcases hpar with h0 | ⟨e, he, hei⟩
      · obtain ⟨r, hr, hr0⟩ := hinv.2.1
        exact ⟨r, hsub.subset hr, by omega⟩
      · exact ⟨e, hsub.subset he, hei⟩
    cases rest with
    | nil =>
      -- single segment: insert the caller payload
      have hins := insertEntry_of_findId_none t (revs.headD 0) v hstop
      refine ⟨[newEntry es (pp.getLastD 0) n t (revs.headD 0) v], ?_,
        by simp [newEntry], by simp, ?_, ?_, ?_, ?_, ?_⟩
      · simpa [createChain] using hins
      · intro e he
        have he2 : newEntry es (pp.getLastD 0) n t (revs.headD 0) v = e := by
          simpa using he
        subst he2
        exact ⟨rfl, rfl⟩
      · refine ⟨?_, trivial⟩
        show findId (es ++ newEntry es (pp.getLastD 0) n t (revs.headD 0) v :: []) n
          (pp.getLastD 0) = some (newEntry es (pp.getLastD 0) n t (revs.headD 0) v).id
        exact findId_append_cons hstop rfl rfl
      · exact tableInv_insert hinv hpar
      · intro e he
        simp only [List.mem_singleton] at he
        subst he
        obtain ⟨q, hq, hqid⟩ := hparmem es (List.Sublist.refl es)
        exact ⟨q, List.mem_append_left _ hq, hqid⟩
      · intro e he e0 he0
        simp only [List.mem_singleton] at he
        subst he
        simpa [newEntry] using freshId_gt e0 he0
    | cons r1 r2 =>
      -- intermediate segment: default payload, then recurse below the new row
      set row1 : Entry :=
        newEntry es (pp.getLastD 0) n .integer (revs.headD 0) (.int 0) with hrow1
      have hins : insertEntry es (pp.getLastD 0) n .integer (revs.headD 0) (.int 0) =
          some (es ++ [row1]) := by
        rw [hrow1]
        exact insertEntry_of_findId_none ValueType.integer (revs.headD 0)
          (Value.int 0) hstop
      have hfind1 : findId (es ++ [row1]) n (pp.getLastD 0) = some row1.id := by
        have := @findId_append_cons es [] n (pp.getLastD 0) row1 hstop rfl rfl
        simpa using this
      have hinv1 : TableInv (es ++ [row1]) := tableInv_insert hinv hpar
      have hplt : pp.getLastD 0 < freshId es := by
        rcases hpar with h0 | ⟨e, he, hei⟩
        · rw [h0]; exact freshId_pos es
        · rw [← hei]; exact freshId_gt e he
      have hstop2 : findId (es ++ [row1]) ((r1 :: r2).headD [])
          ((pp ++ [row1.id]).getLastD 0) = none := by
        rw [getLastD_snoc]
        apply findId_eq_none
        intro e he
        rcases List.mem_append.mp he with hm | hm
        · by_cases h0 : e.id = 0
          · have := hinv.2.2.1 e hm h0
            have := freshId_pos es
            simp only [hrow1, newEntry]
            omega
          · have h1 := hinv.2.2.2 e hm h0
            have h2 := freshId_gt e hm
            simp only [hrow1, newEntry]
            omega
        · simp only [List.mem_singleton] at hm
          subst hm
          simp only [hrow1, newEntry]
          omega
      have hpar2 : (pp ++ [row1.id]).getLastD 0 = 0 ∨
          ∃ e ∈ es ++ [row1], e.id = (pp ++ [row1.id]).getLastD 0 := by
        right
        rw [getLastD_snoc]
        exact ⟨row1, List.mem_append_right _ (by simp), rfl⟩
      obtain ⟨newRows2, heq2, hnames2, hdrop2, hlast2, hres2, hinv2, hpex2, hgt2⟩ :=
        ih (es ++ [row1]) (pp ++ [row1.id]) t v revs.tail hinv1 (by simp) hstop2 hpar2
      have hassoc : (es ++ [row1]) ++ newRows2 = es ++ (row1 :: newRows2) := by
        simp
      have hnr2ne : newRows2 ≠ [] := by
        intro hcon
        rw [hcon] at hnames2
        simp at hnames2
      refine ⟨row1 :: newRows2, ?_, ?_, ?_, ?_, ?_, ?_, ?_, ?_⟩
      · show createChain es pp (n :: r1 :: r2) t v revs = some (es ++ (row1 :: newRows2))
        rw [show createChain es pp (n :: r1 :: r2) t v revs =
            (do
              let es1 ← insertEntry es (pp.getLastD 0) n .integer (revs.headD 0) (.int 0)
              let newId ← findId es1 n (pp.getLastD 0)
              createChain es1 (pp ++ [newId]) (r1 :: r2) t v revs.tail) from rfl]
        rw [hins]
        show (do
          let newId ← findId (es ++ [row1]) n (pp.getLastD 0)
          createChain (es ++ [row1]) (pp ++ [newId]) (r1 :: r2) t v revs.tail) =
          some (es ++ (row1 :: newRows2))
        rw [hfind1]
        show createChain (es ++ [row1]) (pp ++ [row1.id]) (r1 :: r2) t v revs.tail =
          some (es ++ (row1 :: newRows2))
        rw [heq2, hassoc]
      · simp only [List.map_cons, hnames2]
        rfl
      · intro e he
        rcases newRows2 with _ | ⟨w, ws⟩
        · exact absurd rfl hnr2ne
        · rw [List.dropLast_cons₂] at he
          rcases List.mem_cons.mp he with rfl | hm
          · exact ⟨rfl, rfl⟩
          · exact hdrop2 e hm
      · intro e he
        rcases newRows2 with _ | ⟨w, ws⟩
        · exact absurd rfl hnr2ne
        · rw [List.getLast?_cons_cons] at he
          exact hlast2 e he
      · refine ⟨?_, ?_⟩
        · show findId (es ++ row1 :: newRows2) n (pp.getLastD 0) = some row1.id
          exact findId_append_cons hstop rfl rfl
        · have := hres2
          rw [hassoc] at this
          rw [getLastD_snoc] at this
          exact this
      · rw [← hassoc]
        exact hinv2
      · intro e he
        rcases List.mem_cons.mp he with rfl | hm
        · obtain ⟨q, hq, hqid⟩ := hparmem es (List.Sublist.refl es)
          exact ⟨q, List.mem_append_left _ hq, hqid⟩
        · obtain ⟨q, hq, hqid⟩ := hpex2 e hm
          rw [hassoc] at hq
          exact ⟨q, hq, hqid⟩
      · intro e he e0 he0
        rcases List.mem_cons.mp he with rfl | hm
        · simpa [hrow1, newEntry] using freshId_gt e0 he0
        · exact hgt2 e hm e0 (List.mem_append_left _ he0)

/-! ### Claim C3: Create fails on existing paths and auto-vivifies new ones -/

/-- Claim C3: for a valid name, when the full path already resolves `Create`
fails with `NameAlreadyExists` (the error yields no successor state, so no
entry changes); otherwise it succeeds, appends one row per missing segment
so that all intermediate rows carry the default payload `(Integer, 0)` and
the final row carries the caller type and value, and afterwards every
prefix of the path resolves. -/
theorem create_auto_vivifies (s : StoreState) (name : List Char) (v : Value)
    (revs : List Int) (path : List (List Char)) (hwf : WF s)
    (hp : parseName s name = .ok path) :
    ((resolveIds s.entries 0 path).2 = [] →
      createOp s name v revs = .error .nameAlreadyExists) ∧
    ((resolveIds s.entries 0 path).2 ≠ [] →
      ∃ s2 newRows, createOp s name v revs = .ok s2 ∧
        newRows ≠ [] ∧
        s2.entries = s.entries.map (fun e =>
          { e with revision := e.revision +
            (((0 :: (resolveIds s.entries 0 path).1).count e.id : Nat) : Int) }) ++
          newRows ∧
        (∀ e ∈ newRows.dropLast, e.vtype = .integer ∧ e.value = .int 0) ∧
        (∀ e, newRows.getLast? = some e → e.vtype = v.vtype ∧ e.value = v) ∧
        newRows.map (fun e => e.name) = (resolveIds s.entries 0 path).2 ∧
        (∀ k : Nat, (resolveIds s2.entries 0 (path.take k)).2 = [])) := by
  constructor
  · intro hr2
    unfold createOp
    rw [hp]
    simp only [bind, Except.bind, hr2, List.isEmpty_nil, if_true]
  · intro hr2ne
    obtain ⟨pre, hsplit, hres, hstop⟩ := @resolveIds_split s.entries path 0
    have hinv : TableInv s.entries := tableInv_of_wf hwf
    have hpar : (resolveIds s.entries 0 path).1.getLastD 0 = 0 ∨
        ∃ e ∈ s.entries, e.id = (resolveIds s.entries 0 path).1.getLastD 0 := by
      by_cases hnil : (resolveIds s.entries 0 path).1 = []
      · left; rw [hnil]; rfl
      · right
        exact resolvesTo_mem hres _ (getLastD_mem hnil 0)
    obtain ⟨newRows, heq, hnames, hdrop, hlast, hres2, hinv2, hpex2, hgt2⟩ :=
      createChain_spec (resolveIds s.entries 0 path).2 s.entries
        (resolveIds s.entries 0 path).1 v.vtype v revs hinv hr2ne
        (hstop hr2ne) hpar
    have hids1 : ∀ i ∈ (resolveIds s.entries 0 path).1,
        ∃ e ∈ s.entries ++ newRows, e.id = i := by
      intro i hi
      obtain ⟨e, he, hei⟩ := resolvesTo_mem hres i hi
      exact ⟨e, List.mem_append_left _ he, hei⟩
    have hupd := @updateRevision_spec (s.entries ++ newRows)
      (resolveIds s.entries 0 path).1 hinv2.1 hinv2.2.1 hids1
    have hcreate : createOp s name v revs = .ok
        { s with entries := (s.entries ++ newRows).map (fun e =>
          { e with revision := e.revision +
            (((0 :: (resolveIds s.entries 0 path).1).count e.id : Nat) : Int) }) } := by
      unfold createOp
      rw [hp]
      simp only [bind, Except.bind]
      rw [show ((resolveIds s.entries 0 path).2.isEmpty) = false from
        List.isEmpty_eq_false.mpr hr2ne]
      simp only [Bool.false_eq_true, if_false]
      rw [heq]
      show (match updateRevision (s.entries ++ newRows)
          (resolveIds s.entries 0 path).1 with
        | none => (Except.error Err.invalidQuery : Except Err StoreState)
        | some es2 => pure { s with entries := es2 }) = _
      rw [hupd]
      rfl
    set bumpf : Entry → Entry := fun e =>
      { e with revision := e.revision +
        (((0 :: (resolveIds s.entries 0 path).1).count e.id : Nat) : Int) } with hbumpf
    have hbid : ∀ e, (bumpf e).id = e.id := fun e => rfl
    have hbname : ∀ e, (bumpf e).name = e.name := fun e => rfl
    have hbpar : ∀ e, (bumpf e).parent = e.parent := fun e => rfl
    have hbvt : ∀ e, (bumpf e).vtype = e.vtype := fun e => rfl
    have hbval : ∀ e, (bumpf e).value = e.value := fun e => rfl
    refine ⟨_, newRows.map bumpf, hcreate, ?_, ?_, ?_, ?_, ?_, ?_⟩
    · intro hcon
      have : newRows = [] := by simpa using hcon
      rw [this] at hnames
      exact hr2ne (by simpa using hnames.symm)
    · show (s.entries ++ newRows).map bumpf =
        s.entries.map bumpf ++ newRows.map bumpf
      exact List.map_append bumpf _ _
    · intro e he
      rw [dropLast_map_entry] at he
      obtain ⟨e0, he0, rfl⟩ := List.mem_map.mp he
      rw [hbvt, hbval]
      exact hdrop e0 he0
    · intro e he
      rw [List.getLast?_map] at he
      cases hl : newRows.getLast? with
      | none => rw [hl] at he; simp at he
      | some e0 =>
        rw [hl] at he
        have : bumpf e0 = e := by simpa using he
        subst this
        rw [hbvt, hbval]
        exact hlast e0 hl
    · show (newRows.map bumpf).map (fun e => e.name) = _
      rw [List.map_map]
      have : ((fun e : Entry => e.name) ∘ bumpf) = fun e : Entry => e.name :=
        funext hbname
      rw [this]
      exact hnames
    · intro k
      have hfull : ResolvesTo (s.entries ++ newRows) 0 path
          ((resolveIds s.entries 0 path).1 ++ newRows.map (fun e => e.id)) := by
        have h1 : ResolvesTo (s.entries ++ newRows) 0 pre
            (resolveIds s.entries 0 path).1 := resolvesTo_append hres
        have h2 := resolvesTo_glue h1 hres2
        rw [← hsplit] at h2
        exact h2
      have htake := resolvesTo_take k hfull
      have hmapped := resolvesTo_map_rev hbid hbname hbpar htake
      have := resolveIds_full_iff.mpr hmapped
      exact congrArg Prod.snd this

/-- Witness for C3: a fresh store, creating the three-segment path a.b.c. -/
theorem create_auto_vivifies_witness :
    (resolveIds (initialState '.').entries 0 [['a'], ['b'], ['c']]).2 ≠ [] ∧
    (∃ s2 newRows,
      createOp (initialState '.') ['a', '.', 'b', '.', 'c'] (.str ['x']) [5, 6, 7] =
        .ok s2 ∧
      newRows ≠ [] ∧
      s2.entries = (initialState '.').entries.map (fun e =>
        { e with revision := e.revision +
          (((0 :: (resolveIds (initialState '.').entries 0
            [['a'], ['b'], ['c']]).1).count e.id : Nat) : Int) }) ++ newRows ∧
      (∀ e ∈ newRows.dropLast, e.vtype = .integer ∧ e.value = .int 0) ∧
      (∀ e, newRows.getLast? = some e →
        e.vtype = (Value.str ['x']).vtype ∧ e.value = .str ['x']) ∧
      newRows.map (fun e => e.name) =
        (resolveIds (initialState '.').entries 0 [['a'], ['b'], ['c']]).2 ∧
      (∀ k : Nat, (resolveIds s2.entries 0 ([['a'], ['b'], ['c']].take k)).2 = [])) :=
  ⟨by decide,
   (create_auto_vivifies (initialState '.') ['a', '.', 'b', '.', 'c'] (.str ['x'])
     [5, 6, 7] [['a'], ['b'], ['c']] (by unfold WF; decide) (by decide)).2 (by decide)⟩

/-! ### Chains in filtered tables -/

theorem nodup_rows {es : List Entry} (hnd : IdsNodup es) : es.Nodup :=
  List.Nodup.of_map Entry.id hnd

theorem idsNodup_filter {es : List Entry} (hnd : IdsNodup es) (q : Entry → Bool) :
    IdsNodup (es.filter q) :=
  List.Nodup.sublist (List.Sublist.map Entry.id (List.filter_sublist es)) hnd

theorem parentsBelow_filter {es : List Entry} (hpb : ParentsBelow es)
    (q : Entry → Bool) : ParentsBelow (es.filter q) := by
  intro e he h0
  exact hpb e (List.mem_of_mem_filter he) h0

theorem find?_id_eq {es : List Entry} (hnd : IdsNodup es) {r : Entry} {x : Int}
    (hr : r ∈ es) (hid : r.id = x) :
    es.find? (fun y => y.id == x) = some r := by
  have := find?_id_of_mem hnd hr
  rw [hid] at this
  exact this

theorem parentOf_eq_of_row {es : List Entry} (hnd : IdsNodup es) {r : Entry} {x : Int}
    (hr : r ∈ es) (hid : r.id = x) : parentOf es x = some r.parent := by
  unfold parentOf
  rw [find?_id_eq hnd hr hid]
  rfl

theorem parentOf_filter_to_orig {es : List Entry} {q : Entry → Bool} {x p : Int}
    (hnd : IdsNodup es) (h : parentOf (es.filter q) x = some p) :
    parentOf es x = some p := by
  obtain ⟨r, hr, hrid, hrpar⟩ := parentOf_mem h
  rw [← hrpar]
  exact parentOf_eq_of_row hnd (List.mem_of_mem_filter hr) hrid

theorem parentOf_orig_to_filter {es : List Entry} {q : Entry → Bool} {x p : Int}
    (hnd : IdsNodup es) (hpres : ∃ r ∈ es.filter q, r.id = x)
    (h : parentOf es x = some p) : parentOf (es.filter q) x = some p := by
  obtain ⟨r, hr, hrid⟩ := hpres
  have h2 : parentOf es x = some r.parent :=
    parentOf_eq_of_row hnd (List.mem_of_mem_filter hr) hrid
  rw [h] at h2
  have hrp : r.parent = p := by simpa using h2.symm
  rw [← hrp]
  exact parentOf_eq_of_row (idsNodup_filter hnd q) hr hrid

theorem anc_filter_up {es : List Entry} {q : Entry → Bool} (hnd : IdsNodup es) :
    ∀ {f : Nat} {a x : Int}, isAncestor (es.filter q) f a x = true →
      isAncestor es f a x = true := by
  intro f
  induction f with
  | zero => intro a x h; simp [isAncestor] at h
  | succ f ih =>
    intro a x h
    obtain ⟨hx, p, hp, hcase⟩ := isAncestor_succ_iff.mp h
    refine isAncestor_succ_iff.mpr ⟨hx, p, parentOf_filter_to_orig hnd hp, ?_⟩
    rcases hcase with rfl | h2
    · exact Or.inl rfl
    · exact Or.inr (ih h2)

theorem anc_filter_down {es : List Entry} {q : Entry → Bool} (hnd : IdsNodup es) :
    ∀ {f : Nat} {a x : Int}, isAncestor es f a x = true →
      (∃ r ∈ es.filter q, r.id = x) →
      (∀ z, Anc es z x → Anc es a z → ∃ r ∈ es.filter q, r.id = z) →
      isAncestor (es.filter q) f a x = true := by
  intro f
  induction f with
  | zero => intro a x h; simp [isAncestor] at h
  | succ f ih =>
    intro a x h hx hmid
    obtain ⟨hx0, p, hp, hcase⟩ := isAncestor_succ_iff.mp h
    refine isAncestor_succ_iff.mpr
      ⟨hx0, p, parentOf_orig_to_filter hnd hx hp, ?_⟩
    rcases hcase with rfl | h2
    · exact Or.inl rfl
    · refine Or.inr (ih h2 ?_ ?_)
      · refine hmid p ⟨1, anc_step hx0 hp 0⟩ ⟨f, h2⟩
      · intro z hzp haz
        refine hmid z ?_ haz
        obtain ⟨g, hg⟩ := hzp
        exact ⟨0 + 1 + g, anc_glue (anc_step hx0 hp 0) hg⟩

theorem anc_row_exists {es : List Entry} {a z : Int} (h : Anc es a z) :
    z ≠ 0 ∧ ∃ r ∈ es, r.id = z := by
  obtain ⟨f, hf⟩ := h
  cases f with
  | zero => simp [isAncestor] at hf
  | succ g =>
    obtain ⟨hz, p, hp, -⟩ := isAncestor_succ_iff.mp hf
    obtain ⟨r, hr, hrid, -⟩ := parentOf_mem hp
    exact ⟨hz, r, hr, hrid⟩

theorem anc_linear {es : List Entry} :
    ∀ {f : Nat} {a x b : Int}, isAncestor es f a x = true → Anc es b x →
      a = b ∨ Anc es a b ∨ Anc es b a := by
  intro f
  induction f with
  | zero => intro a x b h; simp [isAncestor] at h
  | succ g ih =>
    intro a x b h hb
    obtain ⟨hx, p, hp, hcase⟩ := isAncestor_succ_iff.mp h
    obtain ⟨fb, hfb⟩ := hb
    cases fb with
    | zero => simp [isAncestor] at hfb
    | succ gb =>
      obtain ⟨-, p2, hp2, hcase2⟩ := isAncestor_succ_iff.mp hfb
      have hpp : p2 = p := by
        rw [hp] at hp2
        simpa using hp2.symm
      subst hpp
      rcases hcase with rfl | h2
      · rcases hcase2 with rfl | h3
        · exact Or.inl rfl
        · exact Or.inr (Or.inr ⟨gb, h3⟩)
      · rcases hcase2 with rfl | h3
        · exact Or.inr (Or.inl ⟨g, h2⟩)
        · exact ih h2 ⟨gb, h3⟩

/-- Rows strictly below an id (its descendants). -/
def descRows (es : List Entry) (a : Int) : List Entry :=
  es.filter (fun e => ancestorB es a e.id)

theorem anc_to_ancestorB {es : List Entry} (hpb : ParentsBelow es) {a x : Int}
    (h : Anc es a x) : ancestorB es a x = true := by
  obtain ⟨f, hf⟩ := h
  exact anc_fuel hpb hf

theorem desc_child_lt {es : List Entry} (hnd : IdsNodup es) (hpb : ParentsBelow es)
    {r : Entry} (hr : r ∈ es) (hrne : r.id ≠ 0) :
    (descRows es r.id).length < (descRows es r.parent).length := by
  have hpar : parentOf es r.id = some r.parent := parentOf_eq_of_row hnd hr rfl
  have hstep : isAncestor es 1 r.parent r.id = true := anc_step hrne hpar 0
  refine length_filter_lt_of_mem hr ?_ ?_ ?_
  · exact anc_to_ancestorB hpb ⟨1, hstep⟩
  · intro e he
    refine anc_to_ancestorB hpb ?_
    exact ⟨es.length + 1 + 1, anc_glue (show isAncestor es (es.length + 1) r.id e.id =
      true from he) hstep⟩
  · cases hcon : ancestorB es r.id r.id
    · rfl
    · exact absurd (anc_lt hpb hcon) (lt_irrefl _)

theorem desc_filter_le {es : List Entry} (hnd : IdsNodup es) (hpb : ParentsBelow es)
    (q : Entry → Bool) (c : Int) :
    (descRows (es.filter q) c).length ≤ (descRows es c).length := by
  unfold descRows
  rw [List.filter_filter]
  apply length_filter_mono
  intro e he
  simp only [Bool.and_eq_true] at he
  refine anc_to_ancestorB hpb ?_
  exact ⟨(es.filter q).length + 1, anc_filter_up hnd he.1⟩

/-! ### Children lists -/

theorem getChildEntries_mem {es : List Entry} {p c : Int} :
    c ∈ getChildEntries es p ↔ ∃ r ∈ es, r.id = c ∧ r.parent = p ∧ c ≠ 0 := by
  unfold getChildEntries
  constructor
  · intro h
    obtain ⟨r, hr, hrid⟩ := List.mem_map.mp h
    have := List.mem_filter.mp hr
    refine ⟨r, this.1, hrid, ?_, ?_⟩
    · have h2 := this.2
      simp only [Bool.and_eq_true, beq_iff_eq] at h2
      exact h2.1
    · have h2 := this.2
      simp only [Bool.and_eq_true, bne_iff_ne, ne_eq] at h2
      rw [← hrid]
      exact h2.2
  · rintro ⟨r, hr, rfl, hrp, hne⟩
    refine List.mem_map.mpr ⟨r, List.mem_filter.mpr ⟨hr, ?_⟩, rfl⟩
    simp [hrp, hne]

theorem getChildEntries_nodup {es : List Entry} (hnd : IdsNodup es) (p : Int) :
    (getChildEntries es p).Nodup := by
  unfold getChildEntries
  have hsub : (es.filter (fun e => e.parent == p && e.id != 0)).map Entry.id
      |>.Sublist (es.map Entry.id) :=
    List.Sublist.map Entry.id (List.filter_sublist es)
  exact List.Nodup.sublist hsub hnd

theorem sibling_not_anc {es : List Entry} (hnd : IdsNodup es) (hpb : ParentsBelow es)
    {p c c2 : Int} (hc : c ∈ getChildEntries es p) (hc2 : c2 ∈ getChildEntries es p)
    (hne : c ≠ c2) : ¬ Anc es c c2 := by
  obtain ⟨r, hr, hrid, hrp, hcne⟩ := getChildEntries_mem.mp hc
  obtain ⟨r2, hr2, hr2id, hr2p, hc2ne⟩ := getChildEntries_mem.mp hc2
  rintro ⟨f, hf⟩
  cases f with
  | zero => simp [isAncestor] at hf
  | succ g =>
    obtain ⟨hx0, q, hq, hcase⟩ := isAncestor_succ_iff.mp hf
    have hqp : q = p := by
      have h1 := parentOf_eq_of_row hnd hr2 hr2id
      rw [hq] at h1
      have h2 : r2.parent = q := by simpa using h1.symm
      omega
    have hrne : r.id ≠ 0 := by omega
    have hparlt : r.parent < r.id := hpb r hr hrne
    rcases hcase with rfl | h2
    · -- the shared parent itself equals the sibling c: id ordering fails
      omega
    · -- the sibling c is a proper ancestor of the shared parent: id ordering fails
      have hlt1 : c < q := anc_lt hpb h2
      omega

/-- Every strict descendant of `a` lies below exactly one child of `a`: the
chain passes through a row whose parent is `a`. -/
theorem anc_decomp {es : List Entry} :
    ∀ {f : Nat} {a x : Int}, isAncestor es f a x = true →
      ∃ c, c ∈ getChildEntries es a ∧ (x = c ∨ Anc es c x) := by
  intro f
  induction f with
  | zero => intro a x h; simp [isAncestor] at h
  | succ g ih =>
    intro a x h
    obtain ⟨hx, p, hp, hcase⟩ := isAncestor_succ_iff.mp h
    rcases hcase with rfl | h2
    · obtain ⟨r, hr, hrid, hrpar⟩ := parentOf_mem hp
      refine ⟨x, getChildEntries_mem.mpr ⟨r, hr, hrid, hrpar, hx⟩, Or.inl rfl⟩
    · obtain ⟨c, hc, hcx⟩ := ih h2
      refine ⟨c, hc, Or.inr ?_⟩
      rcases hcx with rfl | ⟨fc, hfc⟩
      · exact ⟨0 + 1, anc_step hx hp 0⟩
      · exact ⟨0 + 1 + fc, anc_glue (anc_step hx hp 0) hfc⟩

theorem bool_eq_of_iff {a b : Bool} (h : a = true ↔ b = true) : a = b := by
  cases a <;> cases b <;> simp_all

theorem ancestorB_iff {es : List Entry} (hpb : ParentsBelow es) {a x : Int} :
    ancestorB es a x = true ↔ Anc es a x :=
  ⟨fun h => ⟨es.length + 1, h⟩, anc_to_ancestorB hpb⟩

theorem child_anc {es : List Entry} (hnd : IdsNodup es) {p c : Int}
    (hc : c ∈ getChildEntries es p) : Anc es p c := by
  obtain ⟨r, hr, hrid, hrpar, hcne⟩ := getChildEntries_mem.mp hc
  have hpo : parentOf es c = some p := by
    have := parentOf_eq_of_row hnd hr hrid
    rw [hrpar] at this
    exact this
  exact ⟨0 + 1, anc_step hcne hpo 0⟩


/-! ### Characterisation of recursive delete -/

/-- The rows surviving the recursive delete of `a`: everything except the row
of `a` itself and the rows of its descendants. -/
def keepOut (es : List Entry) (a : Int) : Entry → Bool :=
  fun e => !(e.id == a || ancestorB es a e.id)

/-- The rows surviving `DeleteChildren es cs`: everything except the listed
rows and their descendants. -/
def delChildPred (es : List Entry) (cs : List Int) : Entry → Bool :=
  fun e => !(cs.contains e.id || cs.any (fun c => ancestorB es c e.id))

/-- With enough fuel, on a duplicate-free table whose parents point strictly
downward, a recursive `TryDeleteEntryImpl` terminates and removes exactly the
target row and all its descendants, and `DeleteChildren` removes the listed
subtrees. -/
theorem delete_spec : ∀ fuel : Nat,
    (∀ es id, IdsNodup es → ParentsBelow es → id ≠ 0 →
      (descRows es id).length < fuel →
      tryDeleteEntryImpl fuel es id true =
        some (true, es.filter (keepOut es id))) ∧
    (∀ cs es, IdsNodup es → ParentsBelow es →
      (∀ c ∈ cs, c ≠ 0) → cs.Nodup →
      (∀ a ∈ cs, ∀ b ∈ cs, a ≠ b → ¬ Anc es a b) →
      (∀ c ∈ cs, (descRows es c).length < fuel) →
      deleteChildren fuel es cs = some (es.filter (delChildPred es cs))) := by
  intro fuel
  induction fuel with
  | zero =>
    constructor
    · intro es id _ _ _ hlt
      exact absurd hlt (by omega)
    · intro cs es _ _ _ _ _ hlt
      cases cs with
      | nil =>
        have hf : List.filter (delChildPred es []) es = es :=
          List.filter_eq_self.mpr (fun a _ => rfl)
        simp [deleteChildren, deleteChildrenWith, hf]
      | cons c rest => exact absurd (hlt c (List.mem_cons_self c rest)) (by omega)
  | succ f ih =>
    have hImpl : ∀ es id, IdsNodup es → ParentsBelow es → id ≠ 0 →
        (descRows es id).length < f + 1 →
        tryDeleteEntryImpl (f + 1) es id true =
          some (true, es.filter (keepOut es id)) := by
      intro es id hnd hpb hid0 hlt
      have hc0s : ∀ c ∈ getChildEntries es id, c ≠ 0 := by
        intro c hc
        obtain ⟨r, hr, hrid, hrp, hcne⟩ := getChildEntries_mem.mp hc
        exact hcne
      have hclt : ∀ c ∈ getChildEntries es id, (descRows es c).length < f := by
        intro c hc
        obtain ⟨r, hr, hrid, hrp, hcne⟩ := getChildEntries_mem.mp hc
        have hdl := desc_child_lt hnd hpb hr (by rw [hrid]; exact hcne)
        rw [hrid, hrp] at hdl
        omega
      have hdc := ih.2 (getChildEntries es id) es hnd hpb hc0s
        (getChildEntries_nodup hnd id)
        (fun a ha b hb hne => sibling_not_anc hnd hpb ha hb hne) hclt
      have heq : tryDeleteEntryImpl (f + 1) es id true =
          (match deleteChildren f es (getChildEntries es id) with
           | none => none
           | some es1 => some (true, deleteById es1 id)) := rfl
      rw [heq, hdc]
      have hfin : deleteById (es.filter (delChildPred es (getChildEntries es id))) id =
          es.filter (keepOut es id) := by
        unfold deleteById
        rw [List.filter_filter]
        refine List.filter_congr ?_
        intro e he
        apply bool_eq_of_iff
        constructor
        · intro h
          have h1 : ((getChildEntries es id).contains e.id) = false ∧
              ((getChildEntries es id).any (fun ch => ancestorB es ch e.id)) = false ∧
              (e.id != id) = true := by
            simp only [delChildPred, Bool.and_eq_true, Bool.not_eq_true',
              Bool.or_eq_false_iff] at h
            exact ⟨h.2.1, h.2.2, h.1⟩
          obtain ⟨hcont, hany, hne⟩ := h1
          have hnid : e.id ≠ id := by simpa using hne
          have hnotch : e.id ∉ getChildEntries es id := by simpa using hcont
          have hnoancc : ∀ ch ∈ getChildEntries es id, ¬ ancestorB es ch e.id = true := by
            simpa using hany
          have hB : ancestorB es id e.id = false := by
            cases hT : ancestorB es id e.id
            · rfl
            · exfalso
              obtain ⟨ch, hch, hcase⟩ := anc_decomp hT
              rcases hcase with rfl | hanc
              · exact hnotch hch
              · exact hnoancc ch hch (anc_to_ancestorB hpb hanc)
          simp only [keepOut, Bool.not_eq_true', Bool.or_eq_false_iff]
          exact ⟨by simpa using hnid, hB⟩
        · intro h
          have h2 : (e.id == id) = false ∧ ancestorB es id e.id = false := by
            simp only [keepOut, Bool.not_eq_true', Bool.or_eq_false_iff] at h
            exact h
          have hnid2 : e.id ≠ id := by simpa using h2.1
          have hnid : (e.id != id) = true := by simpa using hnid2
          have hnoanc : ¬ Anc es id e.id := fun ha =>
            absurd (anc_to_ancestorB hpb ha) (by simp [h2.2])
          have hcontF : ((getChildEntries es id).contains e.id) = false := by
            have hx : e.id ∉ getChildEntries es id := fun hm => hnoanc (child_anc hnd hm)
            simpa using hx
          have hanyF : ((getChildEntries es id).any
              (fun ch => ancestorB es ch e.id)) = false := by
            have hallc : ∀ ch ∈ getChildEntries es id, ¬ ancestorB es ch e.id = true := by
              intro ch hch hT
              obtain ⟨g, hg⟩ := child_anc hnd hch
              exact hnoanc ⟨es.length + 1 + g, anc_glue hT hg⟩
            simpa using hallc
          simp only [delChildPred, Bool.and_eq_true, Bool.not_eq_true',
            Bool.or_eq_false_iff]
          exact ⟨hnid, hcontF, hanyF⟩
      exact congrArg (fun l => some (true, l)) hfin
    have hDC : ∀ cs es, IdsNodup es → ParentsBelow es →
        (∀ c ∈ cs, c ≠ 0) → cs.Nodup →
        (∀ a ∈ cs, ∀ b ∈ cs, a ≠ b → ¬ Anc es a b) →
        (∀ c ∈ cs, (descRows es c).length < f + 1) →
        deleteChildren (f + 1) es cs =
          some (es.filter (delChildPred es cs)) := by
      intro cs
      induction cs with
      | nil =>
        intro es _ _ _ _ _ _
        have hf : List.filter (delChildPred es []) es = es :=
          List.filter_eq_self.mpr (fun a _ => rfl)
        simp [deleteChildren, deleteChildrenWith, hf]
      | cons c rest ihcs =>
        intro es hnd hpb h0 hndc hind hlt
        have hcnotin : c ∉ rest := (List.nodup_cons.mp hndc).1
        have hc0 : c ≠ 0 := h0 c (List.mem_cons_self c rest)
        have himpl := hImpl es c hnd hpb hc0 (hlt c (List.mem_cons_self c rest))
        have heq : deleteChildren (f + 1) es (c :: rest) =
            (match tryDeleteEntryImpl (f + 1) es c true with
             | none => none
             | some r => deleteChildren (f + 1) r.2 rest) := rfl
        rw [heq, himpl]
        have hnd1 : IdsNodup (es.filter (keepOut es c)) := idsNodup_filter hnd _
        have hpb1 : ParentsBelow (es.filter (keepOut es c)) := parentsBelow_filter hpb _
        have h01 : ∀ c2 ∈ rest, c2 ≠ 0 := fun c2 h => h0 c2 (List.mem_cons_of_mem c h)
        have hndc1 : rest.Nodup := (List.nodup_cons.mp hndc).2
        have hind1 : ∀ a ∈ rest, ∀ b ∈ rest, a ≠ b →
            ¬ Anc (es.filter (keepOut es c)) a b := by
          intro a ha b hb hne hanc
          obtain ⟨g, hg⟩ := hanc
          exact hind a (List.mem_cons_of_mem c ha) b (List.mem_cons_of_mem c hb) hne
            ⟨g, anc_filter_up hnd hg⟩
        have hlt1 : ∀ c2 ∈ rest,
            (descRows (es.filter (keepOut es c)) c2).length < f + 1 := by
          intro c2 h
          exact lt_of_le_of_lt (desc_filter_le hnd hpb _ c2)
            (hlt c2 (List.mem_cons_of_mem c h))
        have hrec := ihcs (es.filter (keepOut es c)) hnd1 hpb1 h01 hndc1 hind1 hlt1
        have hcomp : (es.filter (keepOut es c)).filter
              (delChildPred (es.filter (keepOut es c)) rest)
            = es.filter (delChildPred es (c :: rest)) := by
          rw [List.filter_filter]
          refine List.filter_congr ?_
          intro e he
          apply bool_eq_of_iff
          constructor
          · intro h
            have h1 : (rest.contains e.id) = false ∧
                (rest.any (fun c2 =>
                  ancestorB (es.filter (keepOut es c)) c2 e.id)) = false ∧
                (e.id == c) = false ∧ ancestorB es c e.id = false := by
              simp only [delChildPred, keepOut, Bool.and_eq_true, Bool.not_eq_true',
                Bool.or_eq_false_iff] at h
              exact ⟨h.1.1, h.1.2, h.2.1, h.2.2⟩
            obtain ⟨hcont, hany, hbeq, hancb⟩ := h1
            have hne_c : e.id ≠ c := by simpa using hbeq
            have hnr : e.id ∉ rest := by simpa using hcont
            have hall1 : ∀ c2 ∈ rest,
                ¬ ancestorB (es.filter (keepOut es c)) c2 e.id = true := by
              simpa using hany
            have hkeepe : keepOut es c e = true := by
              simp [keepOut, hbeq, hancb]
            have hpres : ∃ r ∈ es.filter (keepOut es c), r.id = e.id :=
              ⟨e, List.mem_filter.mpr ⟨he, hkeepe⟩, rfl⟩
            have hnoancs : ∀ c2 ∈ c :: rest, ancestorB es c2 e.id = false := by
              intro c2 hc2
              rcases List.mem_cons.mp hc2 with hEc | hc2r
              · rw [hEc]; exact hancb
              · cases hab : ancestorB es c2 e.id
                · rfl
                · exfalso
                  have hnec2 : c2 ≠ c := fun hE => hcnotin (hE ▸ hc2r)
                  have hmid : ∀ z, Anc es z e.id → Anc es c2 z →
                      ∃ r ∈ es.filter (keepOut es c), r.id = z := by
                    intro z hz hc2z
                    obtain ⟨hz0, r, hr, hrid⟩ := anc_row_exists hc2z
                    refine ⟨r, List.mem_filter.mpr ⟨hr, ?_⟩, hrid⟩
                    have hzc : z ≠ c := by
                      intro hE
                      rw [hE] at hc2z
                      exact hind c2 (List.mem_cons_of_mem c hc2r) c
                        (List.mem_cons_self c rest) hnec2 hc2z
                    have hzanc : ancestorB es c z = false := by
                      cases hB : ancestorB es c z
                      · rfl
                      · exfalso
                        rcases anc_linear hB hc2z with hE | hcc2 | hc2c
                        · exact hnec2 hE.symm
                        · exact hind c (List.mem_cons_self c rest) c2
                            (List.mem_cons_of_mem c hc2r) (fun hE => hnec2 hE.symm) hcc2
                        · exact hind c2 (List.mem_cons_of_mem c hc2r) c
                            (List.mem_cons_self c rest) hnec2 hc2c
                    simp only [keepOut, hrid, Bool.not_eq_true', Bool.or_eq_false_iff]
                    exact ⟨by simpa using hzc, hzanc⟩
                  have hdown := anc_filter_down hnd hab hpres hmid
                  exact absurd (anc_to_ancestorB hpb1 ⟨es.length + 1, hdown⟩)
                    (hall1 c2 hc2r)
            have hnm : e.id ∉ c :: rest := by
              intro hm
              rcases List.mem_cons.mp hm with hE | hm2
              · exact hne_c hE
              · exact hnr hm2
            have hcontF : ((c :: rest).contains e.id) = false := by simpa using hnm
            have hanyF : ((c :: rest).any (fun c2 => ancestorB es c2 e.id)) = false := by
              simpa using hnoancs
            simp only [delChildPred, Bool.not_eq_true', Bool.or_eq_false_iff]
            exact ⟨hcontF, hanyF⟩
          · intro h
            have h2 : ((c :: rest).contains e.id) = false ∧
                ((c :: rest).any (fun c2 => ancestorB es c2 e.id)) = false := by
              simp only [delChildPred, Bool.not_eq_true', Bool.or_eq_false_iff] at h
              exact h
            have hnm : e.id ∉ c :: rest := by simpa using h2.1
            have hallF : ∀ c2 ∈ c :: rest, ¬ ancestorB es c2 e.id = true := by
              simpa using h2.2
            have hneid : e.id ≠ c := by
              intro hE
              exact hnm (by rw [hE]; exact List.mem_cons_self c rest)
            have hne_c : (e.id == c) = false := by simpa using hneid
            have hancbF : ancestorB es c e.id = false := by
              cases hB : ancestorB es c e.id
              · rfl
              · exact absurd hB (hallF c (List.mem_cons_self c rest))
            have hcontr : (rest.contains e.id) = false := by
              have hx : e.id ∉ rest := fun hm => hnm (List.mem_cons_of_mem c hm)
              simpa using hx
            have hanyr : (rest.any (fun c2 =>
                ancestorB (es.filter (keepOut es c)) c2 e.id)) = false := by
              have hallr : ∀ c2 ∈ rest,
                  ¬ ancestorB (es.filter (keepOut es c)) c2 e.id = true := by
                intro c2 hc2 hT
                have hup := anc_filter_up hnd hT
                exact hallF c2 (List.mem_cons_of_mem c hc2)
                  (anc_to_ancestorB hpb ⟨(es.filter (keepOut es c)).length + 1, hup⟩)
              simpa using hallr
            have hkeepe2 : keepOut es c e = true := by
              simp [keepOut, hne_c, hancbF]
            simp only [delChildPred, Bool.and_eq_true, Bool.not_eq_true',
              Bool.or_eq_false_iff]
            exact ⟨⟨hcontr, hanyr⟩, hkeepe2⟩
        exact hrec.trans (congrArg some hcomp)
    exact ⟨hImpl, hDC⟩


/-! ### Claim C7: recursive TryDelete -/

theorem dropLast_append_getLastD :
    ∀ {l : List Int}, l ≠ [] → ∀ d : Int, l.dropLast ++ [l.getLastD d] = l := by
  intro l
  induction l with
  | nil => intro h; exact absurd rfl h
  | cons a t ih =>
    intro _ d
    cases t with
    | nil => rfl
    | cons b t2 =>
      show a :: ((b :: t2).dropLast ++ [(b :: t2).getLastD a]) = a :: (b :: t2)
      rw [ih (by simp) a]

/-- Claim C7: a successful `TryDelete(name, recursive := true)` on a
consistent store commits a state in which the resolved entry and every one
of its descendants are gone, the revisions of the root and of every proper
ancestor on the resolved chain are each one higher, and every other row is
kept verbatim; the committed table is exactly the original minus the deleted
subtree, with the ancestor revision bumps applied. -/
theorem tryDelete_recursive_deletes_subtree
    (s : StoreState) (name : List Char) (s2 : StoreState)
    (hwf : WF s) (h : tryDeleteOp s name true = .ok (true, s2)) :
    ∃ path ids did,
      parseName s name = .ok path ∧
      resolveIds s.entries 0 path = (ids, []) ∧
      ids ≠ [] ∧ did = ids.getLastD 0 ∧
      s2.entries = (s.entries.filter (keepOut s.entries did)).map
        (fun e => { e with revision :=
          e.revision + (((0 :: ids.dropLast).count e.id : Nat) : Int) }) ∧
      (∀ e ∈ s2.entries, e.id ≠ did ∧ ¬ Anc s.entries did e.id) ∧
      (∀ i ∈ 0 :: ids.dropLast, ∀ r : Int,
        getEntryRevision s.entries i = .ok r →
        getEntryRevision s2.entries i = .ok (r + 1)) ∧
      (∀ e ∈ s.entries, e.id ≠ did → ¬ Anc s.entries did e.id →
        e.id ∉ 0 :: ids.dropLast → e ∈ s2.entries) := by
  have hnd : IdsNodup s.entries := hwf.1
  have hpb : ParentsBelow s.entries := fun e he h0 => (hwf.2.2.2 e he h0).2.1
  unfold tryDeleteOp at h
  cases hp : parseName s name with
  | error er =>
    rw [hp] at h
    exact absurd h (by simp [Bind.bind, Except.bind])
  | ok path =>
    rw [hp] at h
    have h2 : (if !(resolveIds s.entries 0 path).2.isEmpty
        then (pure (false, s) : Except Err (Bool × StoreState))
        else match tryDeleteEntry s.entries (resolveIds s.entries 0 path).1 true with
          | none => .error .invalidQuery
          | some (b, es2) => pure (b, { s with entries := es2 })) = .ok (true, s2) := h
    cases hres : (resolveIds s.entries 0 path).2.isEmpty with
    | false =>
      rw [hres] at h2
      exact absurd h2 (by simp [pure, Except.pure])
    | true =>
      rw [hres] at h2
      have h3 : (match tryDeleteEntry s.entries (resolveIds s.entries 0 path).1 true with
          | none => (.error .invalidQuery : Except Err (Bool × StoreState))
          | some (b, es2) => pure (b, { s with entries := es2 })) = .ok (true, s2) := h2
      have hrem : (resolveIds s.entries 0 path).2 = [] := by
        cases hE : (resolveIds s.entries 0 path).2 with
        | nil => rfl
        | cons a t => rw [hE] at hres; simp at hres
      have hres2 : resolveIds s.entries 0 path = ((resolveIds s.entries 0 path).1, []) := by
        rw [← hrem]
      have hvalid : IsValidName s.delimiter name = true ∧
          tokenize s.delimiter name = path := by
        unfold parseName at hp
        by_cases hv : IsValidName s.delimiter name
        · rw [if_pos hv] at hp
          exact ⟨hv, by simpa using hp⟩
        · rw [if_neg hv] at hp
          simp at hp
      have hsegs : ∀ n ∈ path, n ≠ [] := by
        intro n hn
        rw [← hvalid.2] at hn
        exact (tokenize_segs hn).1
      have hpathne : path ≠ [] := by
        rw [← hvalid.2]
        exact tokenize_ne_nil hvalid.1
      have hRT : ResolvesTo s.entries 0 path (resolveIds s.entries 0 path).1 :=
        resolveIds_full_iff.mp hres2
      have hidsne : (resolveIds s.entries 0 path).1 ≠ [] := by
        intro hnil
        cases hpa : path with
        | nil => exact hpathne hpa
        | cons n rest =>
          rw [hnil] at hRT
          rw [hpa] at hRT
          exact absurd hRT (by simp [ResolvesTo])
      have hch : List.Chain (StepRel s.entries) 0 (resolveIds s.entries 0 path).1 :=
        resolved_chain_steps hnd (fun e he h0 => (hwf.2.2.1 e he h0).2) hpb hRT hsegs
      have hpw : (0 :: (resolveIds s.entries 0 path).1).Pairwise (· < ·) :=
        chain_lt_pairwise (resolved_chain_lt hch)
      have hpos : ∀ i ∈ (resolveIds s.entries 0 path).1, 0 < i :=
        (List.pairwise_cons.mp hpw).1
      have hdid_mem : (resolveIds s.entries 0 path).1.getLastD 0 ∈
          (resolveIds s.entries 0 path).1 := getLastD_mem hidsne 0
      have hdid0 : (resolveIds s.entries 0 path).1.getLastD 0 ≠ 0 := by
        have := hpos _ hdid_mem
        omega
      have hsplit : (resolveIds s.entries 0 path).1.dropLast ++
          [(resolveIds s.entries 0 path).1.getLastD 0] = (resolveIds s.entries 0 path).1 :=
        dropLast_append_getLastD hidsne 0
      have hibound : ∀ i ∈ (resolveIds s.entries 0 path).1.dropLast,
          i < (resolveIds s.entries 0 path).1.getLastD 0 := by
        intro i hi
        have hpw2 : ((resolveIds s.entries 0 path).1.dropLast ++
            [(resolveIds s.entries 0 path).1.getLastD 0]).Pairwise (· < ·) := by
          rw [hsplit]
          exact (List.pairwise_cons.mp hpw).2
        exact (List.pairwise_append.mp hpw2).2.2 i hi _ (by simp)
      have hrowex : ∀ i ∈ (resolveIds s.entries 0 path).1, ∃ e ∈ s.entries, e.id = i :=
        resolvesTo_mem hRT
      have hsafe : ∀ i ∈ 0 :: (resolveIds s.entries 0 path).1.dropLast,
          i ≠ (resolveIds s.entries 0 path).1.getLastD 0 ∧
          ¬ Anc s.entries ((resolveIds s.entries 0 path).1.getLastD 0) i := by
        intro i hi
        rcases List.mem_cons.mp hi with rfl | hi2
        · refine ⟨fun hE => hdid0 hE.symm, fun ha => ?_⟩
          exact absurd rfl (anc_row_exists ha).1
        · have hilt := hibound i hi2
          refine ⟨by omega, fun ha => ?_⟩
          obtain ⟨g, hg⟩ := ha
          have := anc_lt hpb hg
          omega
      have hkeeprow : ∀ e ∈ s.entries,
          e.id ≠ (resolveIds s.entries 0 path).1.getLastD 0 →
          ¬ Anc s.entries ((resolveIds s.entries 0 path).1.getLastD 0) e.id →
          keepOut s.entries ((resolveIds s.entries 0 path).1.getLastD 0) e = true := by
        intro e he hne hnanc
        simp only [keepOut, Bool.not_eq_true', Bool.or_eq_false_iff]
        refine ⟨by simpa using hne, ?_⟩
        cases hB : ancestorB s.entries ((resolveIds s.entries 0 path).1.getLastD 0) e.id
        · rfl
        · exact absurd ⟨s.entries.length + 1, hB⟩ hnanc
      have hfroot : ∃ e ∈ s.entries.filter
          (keepOut s.entries ((resolveIds s.entries 0 path).1.getLastD 0)), e.id = 0 := by
        obtain ⟨r0, hr0, hr0id⟩ := hwf.2.1
        have hk := hkeeprow r0 hr0 (by rw [hr0id]; exact fun hE => hdid0 hE.symm)
          (by rw [hr0id]; exact (hsafe 0 (List.mem_cons_self 0 _)).2)
        exact ⟨r0, List.mem_filter.mpr ⟨hr0, hk⟩, hr0id⟩
      have hfids : ∀ i ∈ (resolveIds s.entries 0 path).1.dropLast,
          ∃ e ∈ s.entries.filter
            (keepOut s.entries ((resolveIds s.entries 0 path).1.getLastD 0)), e.id = i := by
        intro i hi
        obtain ⟨e, he, heid⟩ := hrowex i ((List.dropLast_sublist
          (resolveIds s.entries 0 path).1).subset hi)
        obtain ⟨hne, hnanc⟩ := hsafe i (List.mem_cons_of_mem 0 hi)
        have hk := hkeeprow e he (by rw [heid]; exact hne) (by rw [heid]; exact hnanc)
        exact ⟨e, List.mem_filter.mpr ⟨he, hk⟩, heid⟩
      have hdesc : (descRows s.entries ((resolveIds s.entries 0 path).1.getLastD 0)).length
          < s.entries.length + 1 := Nat.lt_succ_of_le (List.length_filter_le _ _)
      have himpl := (delete_spec (s.entries.length + 1)).1 s.entries
        ((resolveIds s.entries 0 path).1.getLastD 0) hnd hpb hdid0 hdesc
      have hupd := @updateRevision_spec
        (s.entries.filter (keepOut s.entries ((resolveIds s.entries 0 path).1.getLastD 0)))
        ((resolveIds s.entries 0 path).1.dropLast)
        (idsNodup_filter hnd _) hfroot hfids
      have htde : tryDeleteEntry s.entries (resolveIds s.entries 0 path).1 true =
          some (true, (s.entries.filter
              (keepOut s.entries ((resolveIds s.entries 0 path).1.getLastD 0))).map
            (fun e => { e with revision := e.revision +
              (((0 :: (resolveIds s.entries 0 path).1.dropLast).count e.id : Nat) : Int) })) := by
        unfold tryDeleteEntry
        rw [himpl]
        show (updateRevision (s.entries.filter
            (keepOut s.entries ((resolveIds s.entries 0 path).1.getLastD 0)))
            (resolveIds s.entries 0 path).1.dropLast).bind
          (fun es2 => some (true, es2)) = _
        rw [hupd]
        rfl
      rw [htde] at h3
      simp only [pure, Except.pure, Except.ok.injEq, Prod.mk.injEq, true_and] at h3
      have hs2 : s2.entries = (s.entries.filter
          (keepOut s.entries ((resolveIds s.entries 0 path).1.getLastD 0))).map
        (fun e => { e with revision := e.revision +
          (((0 :: (resolveIds s.entries 0 path).1.dropLast).count e.id : Nat) : Int) }) := by
        rw [← h3]
      have hnodupids : (0 :: (resolveIds s.entries 0 path).1.dropLast).Nodup := by
        have hsub : (0 :: (resolveIds s.entries 0 path).1.dropLast).Sublist
            (0 :: (resolveIds s.entries 0 path).1) :=
          (List.dropLast_sublist (resolveIds s.entries 0 path).1).cons₂ 0
        exact ((hpw.sublist hsub).imp fun hab => ne_of_lt hab)
      refine ⟨path, (resolveIds s.entries 0 path).1,
        (resolveIds s.entries 0 path).1.getLastD 0, rfl, hres2, hidsne, rfl, hs2, ?_, ?_, ?_⟩
      · intro e he
        rw [hs2] at he
        obtain ⟨e0, he0, hee⟩ := List.mem_map.mp he
        have hf := List.mem_filter.mp he0
        have hk := hf.2
        simp only [keepOut, Bool.not_eq_true', Bool.or_eq_false_iff] at hk
        have hid : e.id = e0.id := by rw [← hee]
        constructor
        · rw [hid]
          simpa using hk.1
        · rw [hid]
          intro ha
          exact absurd (hk.2.symm.trans (anc_to_ancestorB hpb ha)) (by simp)
      · intro i hi r hrev
        obtain ⟨hne, hnanc⟩ := hsafe i hi
        unfold getEntryRevision at hrev
        cases hfq : s.entries.find? (fun e => e.id == i) with
        | none => rw [hfq] at hrev; simp at hrev
        | some e0 =>
          rw [hfq] at hrev
          have hrev0 : e0.revision = r := by simpa using hrev
          have heid : e0.id = i := by simpa using List.find?_some hfq
          have he0 : e0 ∈ s.entries := List.mem_of_find?_eq_some hfq
          have hk := hkeeprow e0 he0 (by rw [heid]; exact hne) (by rw [heid]; exact hnanc)
          have he0f : e0 ∈ s.entries.filter
              (keepOut s.entries ((resolveIds s.entries 0 path).1.getLastD 0)) :=
            List.mem_filter.mpr ⟨he0, hk⟩
          have hrevF : getEntryRevision (s.entries.filter
              (keepOut s.entries ((resolveIds s.entries 0 path).1.getLastD 0))) i = .ok r := by
            unfold getEntryRevision
            rw [find?_id_eq (idsNodup_filter hnd _) he0f heid]
            show (Except.ok e0.revision : Except Err Int) = Except.ok r
            rw [hrev0]
          have hbump := @getEntryRevision_bumped (s.entries.filter
              (keepOut s.entries ((resolveIds s.entries 0 path).1.getLastD 0)))
            (fun j => (((0 :: (resolveIds s.entries 0 path).1.dropLast).count j : Nat) : Int))
            i r hrevF
          have hcnt : (((0 :: (resolveIds s.entries 0 path).1.dropLast).count i : Nat) : Int)
              = 1 := by
            rw [List.count_eq_one_of_mem hnodupids hi]
            rfl
          rw [hs2]
          exact hbump.trans (by simp only [hcnt])
      · intro e he hne hnanc hnotmem
        have hk := hkeeprow e he hne hnanc
        have hef : e ∈ s.entries.filter
            (keepOut s.entries ((resolveIds s.entries 0 path).1.getLastD 0)) :=
          List.mem_filter.mpr ⟨he, hk⟩
        rw [hs2]
        refine List.mem_map.mpr ⟨e, hef, ?_⟩
        have hc0 : (0 :: (resolveIds s.entries 0 path).1.dropLast).count e.id = 0 :=
          List.count_eq_zero.mpr hnotmem
        show ({ e with revision := e.revision +
          (((0 :: (resolveIds s.entries 0 path).1.dropLast).count e.id : Nat) : Int) } : Entry) = e
        rw [hc0]
        simp

/-- Concrete store for the C7 witness: root, an entry `a` (id 1) and its
child `a.b` (id 2). -/
def c7Store : StoreState :=
  { entries := [rootEntry,
      { id := 1, parent := 0, name := ['a'], revision := 3, vtype := .integer, value := .int 5 },
      { id := 2, parent := 1, name := ['b'], revision := 1, vtype := .integer, value := .int 7 }],
    delimiter := '.' }

/-- The state committed by `TryDelete("a", recursive := true)` on `c7Store`:
only the root remains, its revision bumped once. -/
def c7After : StoreState :=
  { entries := [{ rootEntry with revision := 1 }], delimiter := '.' }

/-- Witness for C7: the theorem applies to the concrete recursive delete of
entry `a` (with child `a.b`) and its committed result. -/
theorem tryDelete_recursive_deletes_subtree_witness :
    ∃ path ids did,
      parseName c7Store ['a'] = .ok path ∧
      resolveIds c7Store.entries 0 path = (ids, []) ∧
      ids ≠ [] ∧ did = ids.getLastD 0 ∧
      c7After.entries = (c7Store.entries.filter (keepOut c7Store.entries did)).map
        (fun e => { e with revision :=
          e.revision + (((0 :: ids.dropLast).count e.id : Nat) : Int) }) ∧
      (∀ e ∈ c7After.entries, e.id ≠ did ∧ ¬ Anc c7Store.entries did e.id) ∧
      (∀ i ∈ 0 :: ids.dropLast, ∀ r : Int,
        getEntryRevision c7Store.entries i = .ok r →
        getEntryRevision c7After.entries i = .ok (r + 1)) ∧
      (∀ e ∈ c7Store.entries, e.id ≠ did → ¬ Anc c7Store.entries did e.id →
        e.id ∉ 0 :: ids.dropLast → e ∈ c7After.entries) :=
  tryDelete_recursive_deletes_subtree c7Store ['a'] c7After
    (by unfold WF; decide) (by decide)


/-! ### Claim C1: every committed state passes the consistency check -/

/-- The structural skeleton of a row: the fields `WF` depends on. -/
def skel (e : Entry) : Int × Int × List Char := (e.id, e.parent, e.name)

theorem map_skel_mem {es es2 : List Entry}
    (hsk : es2.map skel = es.map skel) {e2 : Entry} (he2 : e2 ∈ es2) :
    ∃ e ∈ es, e.id = e2.id ∧ e.parent = e2.parent ∧ e.name = e2.name := by
  have hm : skel e2 ∈ es.map skel := by
    rw [← hsk]
    exact List.mem_map_of_mem skel he2
  obtain ⟨e, he, hes⟩ := List.mem_map.mp hm
  have h1 : e.id = e2.id ∧ e.parent = e2.parent ∧ e.name = e2.name := by
    simpa [skel, Prod.ext_iff] using hes
  exact ⟨e, he, h1⟩

theorem map_id_of_skel {es es2 : List Entry} (hsk : es2.map skel = es.map skel) :
    es2.map Entry.id = es.map Entry.id := by
  have h2 : (es2.map skel).map Prod.fst = (es.map skel).map Prod.fst := by rw [hsk]
  simpa [List.map_map, Function.comp, skel] using h2

/-- `WF` only looks at ids, parents, names and the delimiter, so it
transfers along any rewrite of the table keeping the row skeletons. -/
theorem wf_of_skel_eq {s s2 : StoreState} (hd : s2.delimiter = s.delimiter)
    (hsk : s2.entries.map skel = s.entries.map skel) (hwf : WF s) : WF s2 := by
  obtain ⟨hnd, hroot, hshape, hrest⟩ := hwf
  refine ⟨?_, ?_, ?_, ?_⟩
  · rw [map_id_of_skel hsk]
    exact hnd
  · obtain ⟨r, hr, hr0⟩ := hroot
    obtain ⟨r2, hr2, hid, hpar, hname⟩ := map_skel_mem hsk.symm hr
    exact ⟨r2, hr2, by omega⟩
  · intro e2 he2 h0
    obtain ⟨e, he, hid, hpar, hname⟩ := map_skel_mem hsk he2
    have hsh := hshape e he (by rw [hid]; exact h0)
    constructor
    · rw [← hpar]
      exact hsh.1
    · rw [← hname]
      exact hsh.2
  · intro e2 he2 h0
    obtain ⟨e, he, hid, hpar, hname⟩ := map_skel_mem hsk he2
    obtain ⟨h1, h2, ⟨p, hp, hpid⟩, h4, h5⟩ := hrest e he (by rw [hid]; exact h0)
    refine ⟨by omega, by omega, ?_, ?_, ?_⟩
    · obtain ⟨p2, hp2, hq1, hq2, hq3⟩ := map_skel_mem hsk.symm hp
      exact ⟨p2, hp2, by omega⟩
    · rw [← hname]
      exact h4
    · rw [← hname, hd]
      exact h5

theorem skel_map_of_pointwise {es : List Entry} {f : Entry → Entry}
    (h : ∀ e, skel (f e) = skel e) : (es.map f).map skel = es.map skel := by
  rw [List.map_map]
  exact List.map_congr_left (fun e _ => h e)

theorem writeEntryValue_skel (es : List Entry) (i : Int) (t : ValueType) (v : Value) :
    (writeEntryValue es i t v).map skel = es.map skel := by
  unfold writeEntryValue
  refine skel_map_of_pointwise ?_
  intro e
  by_cases h : e.id = i <;> simp [skel, h]

theorem bumpRevision_skel {es es2 : List Entry} {i : Int}
    (h : bumpRevision es i = some es2) : es2.map skel = es.map skel := by
  unfold bumpRevision at h
  cases hf : es.find? (fun e => e.id == i) with
  | none => rw [hf] at h; simp at h
  | some e0 =>
    rw [hf] at h
    have h2 : es.map (fun x => if x.id == i then { x with revision := e0.revision + 1 }
        else x) = es2 := by
      simpa using h
    rw [← h2]
    refine skel_map_of_pointwise ?_
    intro e
    by_cases hx : e.id = i <;> simp [skel, hx]

theorem foldlM_bump_skel : ∀ (ids : List Int) (es es2 : List Entry),
    ids.foldlM bumpRevision es = some es2 → es2.map skel = es.map skel := by
  intro ids
  induction ids with
  | nil =>
    intro es es2 h
    have h2 : es = es2 := by simpa using h
    rw [h2]
  | cons i rest ih =>
    intro es es2 h
    rw [List.foldlM_cons] at h
    cases hb : bumpRevision es i with
    | none => rw [hb] at h; simp at h
    | some es1 =>
      rw [hb] at h
      have h3 : rest.foldlM bumpRevision es1 = some es2 := by simpa using h
      exact (ih es1 es2 h3).trans (bumpRevision_skel hb)

theorem updateRevision_skel {es es2 : List Entry} {ids : List Int}
    (h : updateRevision es ids = some es2) : es2.map skel = es.map skel := by
  unfold updateRevision at h
  cases hb : bumpRevision es 0 with
  | none => rw [hb] at h; simp at h
  | some es1 =>
    rw [hb] at h
    have h3 : ids.foldlM bumpRevision es1 = some es2 := by simpa using h
    exact (foldlM_bump_skel ids es1 es2 h3).trans (bumpRevision_skel hb)

/-- Committing a revision bump keeps the structural invariant. -/
theorem wf_commit_update {s : StoreState} {es1 es2 : List Entry} {ids : List Int}
    (hwf1 : WF { s with entries := es1 })
    (h : updateRevision es1 ids = some es2) : WF { s with entries := es2 } :=
  @wf_of_skel_eq { s with entries := es1 } { s with entries := es2 } rfl
    (updateRevision_skel h) hwf1

/-- `Set` (value write plus revision bumps) keeps the structural invariant. -/
theorem wf_write_update {s : StoreState} {i : Int} {t : ValueType} {v : Value}
    {ids : List Int} {es2 : List Entry} (hwf : WF s)
    (hu : updateRevision (writeEntryValue s.entries i t v) ids = some es2) :
    WF { s with entries := es2 } :=
  wf_commit_update
    (@wf_of_skel_eq s { s with entries := writeEntryValue s.entries i t v } rfl
      (writeEntryValue_skel s.entries i t v) hwf) hu

theorem wf_setOp {s : StoreState} {name : List Char} {v : Value} {s2 : StoreState}
    (hwf : WF s) (h : setOp s name v = .ok s2) : WF s2 := by
  unfold setOp at h
  cases hp : parseName s name with
  | error e =>
    rw [hp] at h
    exact absurd h (by simp [Bind.bind, Except.bind])
  | ok path =>
    rw [hp] at h
    have h2 : (getEntryIdE s.entries path >>= fun ids =>
        match updateRevision (writeEntryValue s.entries (ids.getLastD 0) v.vtype v) ids with
        | none => .error .invalidQuery
        | some es2 => pure { s with entries := es2 }) = .ok s2 := h
    cases hg : getEntryIdE s.entries path with
    | error e =>
      rw [hg] at h2
      exact absurd h2 (by simp [Bind.bind, Except.bind])
    | ok ids =>
      rw [hg] at h2
      have h3 : (match updateRevision (writeEntryValue s.entries (ids.getLastD 0) v.vtype v)
            ids with
        | none => (.error .invalidQuery : Except Err StoreState)
        | some es2 => pure { s with entries := es2 }) = .ok s2 := h2
      cases hu : updateRevision (writeEntryValue s.entries (ids.getLastD 0) v.vtype v) ids with
      | none =>
        rw [hu] at h3
        exact absurd h3 (by simp)
      | some es2 =>
        rw [hu] at h3
        have hs2 : { s with entries := es2 } = s2 := by
          simpa [pure, Except.pure] using h3
        rw [← hs2]
        exact wf_write_update hwf hu


theorem parseName_ok_facts {s : StoreState} {name : List Char} {path : List (List Char)}
    (hp : parseName s name = .ok path) :
    IsValidName s.delimiter name = true ∧ tokenize s.delimiter name = path := by
  unfold parseName at hp
  by_cases hv : IsValidName s.delimiter name
  · rw [if_pos hv] at hp
    exact ⟨hv, by simpa using hp⟩
  · rw [if_neg hv] at hp
    simp at hp

/-- Creating the missing suffix of a parsed path keeps the structural
invariant: the new rows have fresh positive ids, live parents, and
non-empty delimiter-free names taken from the tokenized path. -/
theorem wf_append_chain {s : StoreState} {path : List (List Char)} {name : List Char}
    {t : ValueType} {v : Value} {revs : List Int} {es1 : List Entry}
    (hwf : WF s) (hp : parseName s name = .ok path)
    (hne : (resolveIds s.entries 0 path).2 ≠ [])
    (hcc : createChain s.entries (resolveIds s.entries 0 path).1
      (resolveIds s.entries 0 path).2 t v revs = some es1) :
    WF { s with entries := es1 } := by
  obtain ⟨pre, hpre, hRT, hstopf⟩ := @resolveIds_split s.entries path 0
  have hstop := hstopf hne
  have hpar : (resolveIds s.entries 0 path).1.getLastD 0 = 0 ∨
      ∃ e ∈ s.entries, e.id = (resolveIds s.entries 0 path).1.getLastD 0 := by
    by_cases hi : (resolveIds s.entries 0 path).1 = []
    · left
      rw [hi]
      rfl
    · right
      exact resolvesTo_mem hRT _ (getLastD_mem hi 0)
  obtain ⟨newRows, hccs, hnames, hmid, hlast, hRT2, hinv2, hpars, hgt⟩ :=
    createChain_spec (resolveIds s.entries 0 path).2 s.entries
      (resolveIds s.entries 0 path).1 t v revs (tableInv_of_wf hwf) hne hstop hpar
  rw [hccs] at hcc
  have hes1 : es1 = s.entries ++ newRows := by simpa using hcc.symm
  subst hes1
  obtain ⟨hnd2, hroot2, hshape0, hparlt⟩ := hinv2
  have hseginfo : ∀ n ∈ (resolveIds s.entries 0 path).2,
      n ≠ [] ∧ n.contains s.delimiter = false := by
    intro n hn
    have hnp : n ∈ path := by
      rw [hpre]
      exact List.mem_append_right pre hn
    rw [← (parseName_ok_facts hp).2] at hnp
    have hseg := tokenize_segs hnp
    exact ⟨hseg.1, contains_eq_false_iff.mpr (fun c hc => hseg.2 c hc)⟩
  refine ⟨hnd2, hroot2, ?_, ?_⟩
  · intro e he h0
    rcases List.mem_append.mp he with hm | hm
    · exact hwf.2.2.1 e hm h0
    · exfalso
      obtain ⟨r, hr, hr0⟩ := hwf.2.1
      have := hgt e hm r hr
      omega
  · intro e he h0
    rcases List.mem_append.mp he with hm | hm
    · obtain ⟨ha, hb, ⟨p, hp2, hpid⟩, hd1, hd2⟩ := hwf.2.2.2 e hm h0
      exact ⟨ha, hb, ⟨p, List.mem_append_left _ hp2, hpid⟩, hd1, hd2⟩
    · have hlt := hparlt e he h0
      refine ⟨hlt.1, hlt.2, hpars e hm, ?_, ?_⟩
      all_goals {
        have hnm : e.name ∈ newRows.map (fun x => x.name) :=
          List.mem_map_of_mem (fun x => x.name) hm
        rw [hnames] at hnm
        first
        | exact (hseginfo e.name hnm).1
        | exact (hseginfo e.name hnm).2
      }

theorem wf_createOp {s : StoreState} {name : List Char} {v : Value} {revs : List Int}
    {s2 : StoreState} (hwf : WF s) (h : createOp s name v revs = .ok s2) : WF s2 := by
  unfold createOp at h
  cases hp : parseName s name with
  | error e =>
    rw [hp] at h
    exact absurd h (by simp [Bind.bind, Except.bind])
  | ok path =>
    rw [hp] at h
    have h2 : (if (resolveIds s.entries 0 path).2.isEmpty
        then (.error .nameAlreadyExists : Except Err StoreState)
        else match createChain s.entries (resolveIds s.entries 0 path).1
            (resolveIds s.entries 0 path).2 v.vtype v revs with
          | none => .error .invalidInsert
          | some es1 =>
            match updateRevision es1 (resolveIds s.entries 0 path).1 with
            | none => .error .invalidQuery
            | some es2 => pure { s with entries := es2 }) = .ok s2 := h
    cases hie : (resolveIds s.entries 0 path).2.isEmpty with
    | true =>
      rw [hie] at h2
      exact absurd h2 (by simp)
    | false =>
      rw [hie] at h2
      have hne : (resolveIds s.entries 0 path).2 ≠ [] := by
        intro hE
        rw [hE] at hie
        simp at hie
      have h3 : (match createChain s.entries (resolveIds s.entries 0 path).1
            (resolveIds s.entries 0 path).2 v.vtype v revs with
          | none => (.error .invalidInsert : Except Err StoreState)
          | some es1 =>
            match updateRevision es1 (resolveIds s.entries 0 path).1 with
            | none => .error .invalidQuery
            | some es2 => pure { s with entries := es2 }) = .ok s2 := h2
      cases hcc : createChain s.entries (resolveIds s.entries 0 path).1
          (resolveIds s.entries 0 path).2 v.vtype v revs with
      | none =>
        rw [hcc] at h3
        exact absurd h3 (by simp)
      | some es1 =>
        rw [hcc] at h3
        have h4 : (match updateRevision es1 (resolveIds s.entries 0 path).1 with
          | none => (.error .invalidQuery : Except Err StoreState)
          | some es2 => pure { s with entries := es2 }) = .ok s2 := h3
        cases hu : updateRevision es1 (resolveIds s.entries 0 path).1 with
        | none =>
          rw [hu] at h4
          exact absurd h4 (by simp)
        | some es2 =>
          rw [hu] at h4
          have hs2 : { s with entries := es2 } = s2 := by
            simpa [pure, Except.pure] using h4
          rw [← hs2]
          exact wf_commit_update (wf_append_chain hwf hp hne hcc) hu

theorem wf_setOrCreateOp {s : StoreState} {name : List Char} {v : Value} {revs : List Int}
    {s2 : StoreState} (hwf : WF s) (h : setOrCreateOp s name v revs = .ok s2) : WF s2 := by
  unfold setOrCreateOp at h
  cases hp : parseName s name with
  | error e =>
    rw [hp] at h
    exact absurd h (by simp [Bind.bind, Except.bind])
  | ok path =>
    rw [hp] at h
    have h2 : (if (resolveIds s.entries 0 path).2.isEmpty
        then match updateRevision (writeEntryValue s.entries
            ((resolveIds s.entries 0 path).1.getLastD 0) v.vtype v)
            (resolveIds s.entries 0 path).1 with
          | none => (.error .invalidQuery : Except Err StoreState)
          | some es2 => pure { s with entries := es2 }
        else match createChain s.entries (resolveIds s.entries 0 path).1
            (resolveIds s.entries 0 path).2 v.vtype v revs with
          | none => .error .invalidInsert
          | some es1 =>
            match updateRevision es1 (resolveIds s.entries 0 path).1 with
            | none => .error .invalidQuery
            | some es2 => pure { s with entries := es2 }) = .ok s2 := h
    cases hie : (resolveIds s.entries 0 path).2.isEmpty with
    | true =>
      rw [hie] at h2
      have h3 : (match updateRevision (writeEntryValue s.entries
            ((resolveIds s.entries 0 path).1.getLastD 0) v.vtype v)
            (resolveIds s.entries 0 path).1 with
          | none => (.error .invalidQuery : Except Err StoreState)
          | some es2 => pure { s with entries := es2 }) = .ok s2 := h2
      cases hu : updateRevision (writeEntryValue s.entries
          ((resolveIds s.entries 0 path).1.getLastD 0) v.vtype v)
          (resolveIds s.entries 0 path).1 with
      | none =>
        rw [hu] at h3
        exact absurd h3 (by simp)
      | some es2 =>
        rw [hu] at h3
        have hs2 : { s with entries := es2 } = s2 := by
          simpa [pure, Except.pure] using h3
        rw [← hs2]
        exact wf_write_update hwf hu
    | false =>
      rw [hie] at h2
      have hne : (resolveIds s.entries 0 path).2 ≠ [] := by
        intro hE
        rw [hE] at hie
        simp at hie
      have h3 : (match createChain s.entries (resolveIds s.entries 0 path).1
            (resolveIds s.entries 0 path).2 v.vtype v revs with
          | none => (.error .invalidInsert : Except Err StoreState)
          | some es1 =>
            match updateRevision es1 (resolveIds s.entries 0 path).1 with
            | none => .error .invalidQuery
            | some es2 => pure { s with entries := es2 }) = .ok s2 := h2
      cases hcc : createChain s.entries (resolveIds s.entries 0 path).1
          (resolveIds s.entries 0 path).2 v.vtype v revs with
      | none =>
        rw [hcc] at h3
        exact absurd h3 (by simp)
      | some es1 =>
        rw [hcc] at h3
        have h4 : (match updateRevision es1 (resolveIds s.entries 0 path).1 with
          | none => (.error .invalidQuery : Except Err StoreState)
          | some es2 => pure { s with entries := es2 }) = .ok s2 := h3
        cases hu : updateRevision es1 (resolveIds s.entries 0 path).1 with
        | none =>
          rw [hu] at h4
          exact absurd h4 (by simp)
        | some es2 =>
          rw [hu] at h4
          have hs2 : { s with entries := es2 } = s2 := by
            simpa [pure, Except.pure] using h4
          rw [← hs2]
          exact wf_commit_update (wf_append_chain hwf hp hne hcc) hu


/-- A fully resolved parsed path yields a non-empty chain of positive ids. -/
theorem resolved_ids_facts {s : StoreState} {name : List Char} {path : List (List Char)}
    (hwf : WF s) (hp : parseName s name = .ok path)
    (hfull : (resolveIds s.entries 0 path).2 = []) :
    (resolveIds s.entries 0 path).1 ≠ [] ∧
    (∀ i ∈ (resolveIds s.entries 0 path).1, 0 < i) := by
  have hres2 : resolveIds s.entries 0 path = ((resolveIds s.entries 0 path).1, []) := by
    rw [← hfull]
  have hRT : ResolvesTo s.entries 0 path (resolveIds s.entries 0 path).1 :=
    resolveIds_full_iff.mp hres2
  have hsegs : ∀ n ∈ path, n ≠ [] := by
    intro n hn
    rw [← (parseName_ok_facts hp).2] at hn
    exact (tokenize_segs hn).1
  have hpathne : path ≠ [] := by
    rw [← (parseName_ok_facts hp).2]
    exact tokenize_ne_nil (parseName_ok_facts hp).1
  have hpb : ParentsBelow s.entries := fun e he h0 => (hwf.2.2.2 e he h0).2.1
  have hch : List.Chain (StepRel s.entries) 0 (resolveIds s.entries 0 path).1 :=
    resolved_chain_steps hwf.1 (fun e he h0 => (hwf.2.2.1 e he h0).2) hpb hRT hsegs
  have hpos : ∀ i ∈ (resolveIds s.entries 0 path).1, 0 < i :=
    (List.pairwise_cons.mp (chain_lt_pairwise (resolved_chain_lt hch))).1
  refine ⟨?_, hpos⟩
  intro hnil
  cases hpa : path with
  | nil => exact hpathne hpa
  | cons n rest =>
    rw [hnil] at hRT
    rw [hpa] at hRT
    exact absurd hRT (by simp [ResolvesTo])

/-- Removing the whole subtree of a non-root id keeps the structural
invariant: the root survives, and the parent of every surviving row
survives (a row whose parent is deleted is itself a descendant). -/
theorem wf_filter_subtree {s : StoreState} {did : Int} (hwf : WF s) (hdid : did ≠ 0) :
    WF { s with entries := s.entries.filter (keepOut s.entries did) } := by
  have hpb : ParentsBelow s.entries := fun e he h0 => (hwf.2.2.2 e he h0).2.1
  refine ⟨idsNodup_filter hwf.1 _, ?_, ?_, ?_⟩
  · obtain ⟨r, hr, hr0⟩ := hwf.2.1
    refine ⟨r, List.mem_filter.mpr ⟨hr, ?_⟩, hr0⟩
    simp only [keepOut, Bool.not_eq_true', Bool.or_eq_false_iff]
    constructor
    · rw [hr0]
      simp only [beq_eq_false_iff_ne, ne_eq]
      omega
    · rw [hr0]
      cases hB : ancestorB s.entries did 0 with
      | false => rfl
      | true => exact absurd rfl (anc_row_exists ⟨s.entries.length + 1, hB⟩).1
  · intro e he h0
    exact hwf.2.2.1 e (List.mem_of_mem_filter he) h0
  · intro e he h0
    have hem := List.mem_of_mem_filter he
    obtain ⟨ha, hb, ⟨p, hpmem, hpid⟩, hd1, hd2⟩ := hwf.2.2.2 e hem h0
    refine ⟨ha, hb, ?_, hd1, hd2⟩
    have hkp := (List.mem_filter.mp he).2
    simp only [keepOut, Bool.not_eq_true', Bool.or_eq_false_iff] at hkp
    refine ⟨p, List.mem_filter.mpr ⟨hpmem, ?_⟩, hpid⟩
    have hstep : isAncestor s.entries 1 e.parent e.id = true := by
      have hpo := parentOf_eq_of_row hwf.1 hem rfl
      exact anc_step h0 hpo 0
    simp only [keepOut, Bool.not_eq_true', Bool.or_eq_false_iff]
    constructor
    · cases hq : (p.id == did) with
      | false => rfl
      | true =>
        exfalso
        have hpd : e.parent = did := by
          have hq2 : p.id = did := by simpa using hq
          omega
        have hstep2 : isAncestor s.entries 1 did e.id = true := by
          rw [← hpd]
          exact hstep
        have hT : ancestorB s.entries did e.id = true := anc_fuel hpb hstep2
        rw [hkp.2] at hT
        exact Bool.noConfusion hT
    · cases hq : ancestorB s.entries did p.id with
      | false => rfl
      | true =>
        exfalso
        have hq2 : isAncestor s.entries (s.entries.length + 1) did e.parent = true := by
          rw [← hpid]
          exact hq
        have hT : ancestorB s.entries did e.id = true :=
          anc_fuel hpb (anc_glue hstep hq2)
        rw [hkp.2] at hT
        exact Bool.noConfusion hT

/-- Deleting a childless non-root row keeps the structural invariant. -/
theorem wf_delete_leaf {s : StoreState} {did : Int} (hwf : WF s) (hdid : did ≠ 0)
    (hnochild : hasChildCount s.entries did = false) :
    WF { s with entries := deleteById s.entries did } := by
  have hcnt : (s.entries.filter (fun x => x.parent == did)).length = 0 := by
    unfold hasChildCount at hnochild
    have hd0 : (did == (0 : Int)) = false := by
      simp only [beq_eq_false_iff_ne, ne_eq]
      exact hdid
    rw [hd0] at hnochild
    simpa using hnochild
  refine ⟨?_, ?_, ?_, ?_⟩
  · exact idsNodup_filter hwf.1 _
  · obtain ⟨r, hr, hr0⟩ := hwf.2.1
    refine ⟨r, List.mem_filter.mpr ⟨hr, ?_⟩, hr0⟩
    rw [hr0]
    simp only [bne_iff_ne, ne_eq]
    omega
  · intro e he h0
    exact hwf.2.2.1 e (List.mem_of_mem_filter he) h0
  · intro e he h0
    have hem := List.mem_of_mem_filter he
    obtain ⟨ha, hb, ⟨p, hpmem, hpid⟩, hd1, hd2⟩ := hwf.2.2.2 e hem h0
    refine ⟨ha, hb, ?_, hd1, hd2⟩
    refine ⟨p, List.mem_filter.mpr ⟨hpmem, ?_⟩, hpid⟩
    simp only [bne_iff_ne, ne_eq]
    intro hE
    have hmemf : e ∈ s.entries.filter (fun x => x.parent == did) := by
      refine List.mem_filter.mpr ⟨hem, ?_⟩
      simp only [beq_iff_eq]
      omega
    rw [List.length_eq_zero] at hcnt
    rw [hcnt] at hmemf
    simp at hmemf

/-- A successful `TryDeleteEntry` on a chain of positive ids commits a state
satisfying the structural invariant. -/
theorem wf_tryDeleteEntry {s : StoreState} {ids : List Int} {rec b : Bool}
    {es2 : List Entry} (hwf : WF s) (hidsne : ids ≠ [])
    (hpos : ∀ i ∈ ids, 0 < i)
    (h : tryDeleteEntry s.entries ids rec = some (b, es2)) :
    WF { s with entries := es2 } := by
  have hdid0 : ids.getLastD 0 ≠ 0 := by
    have := hpos _ (getLastD_mem hidsne 0)
    omega
  unfold tryDeleteEntry at h
  cases rec with
  | true =>
    have himpl := (delete_spec (s.entries.length + 1)).1 s.entries (ids.getLastD 0)
      hwf.1 (fun e he h0 => (hwf.2.2.2 e he h0).2.1) hdid0
      (Nat.lt_succ_of_le (List.length_filter_le _ _))
    rw [himpl] at h
    have h2 : (updateRevision (s.entries.filter (keepOut s.entries (ids.getLastD 0)))
        ids.dropLast).bind (fun es2x => some (true, es2x)) = some (b, es2) := h
    cases hu : updateRevision (s.entries.filter (keepOut s.entries (ids.getLastD 0)))
        ids.dropLast with
    | none =>
      rw [hu] at h2
      exact absurd h2 (by simp)
    | some es2x =>
      rw [hu] at h2
      have hx : (some (true, es2x) : Option (Bool × List Entry)) = some (b, es2) := h2
      simp only [Option.some.injEq, Prod.mk.injEq] at hx
      rw [← hx.2]
      exact wf_commit_update (wf_filter_subtree hwf hdid0) hu
  | false =>
    have heq : tryDeleteEntryImpl (s.entries.length + 1) s.entries (ids.getLastD 0) false =
        (if hasChildCount s.entries (ids.getLastD 0) then some (false, s.entries)
         else some (true, deleteById s.entries (ids.getLastD 0))) := rfl
    rw [heq] at h
    cases hhc : hasChildCount s.entries (ids.getLastD 0) with
    | true =>
      rw [hhc] at h
      have h2 : (some (false, s.entries) : Option (Bool × List Entry)) = some (b, es2) := h
      simp only [Option.some.injEq, Prod.mk.injEq] at h2
      rw [← h2.2]
      exact hwf
    | false =>
      rw [hhc] at h
      have h2 : (updateRevision (deleteById s.entries (ids.getLastD 0))
          ids.dropLast).bind (fun es2x => some (true, es2x)) = some (b, es2) := h
      cases hu : updateRevision (deleteById s.entries (ids.getLastD 0)) ids.dropLast with
      | none =>
        rw [hu] at h2
        exact absurd h2 (by simp)
      | some es2x =>
        rw [hu] at h2
        have hx : (some (true, es2x) : Option (Bool × List Entry)) = some (b, es2) := h2
        simp only [Option.some.injEq, Prod.mk.injEq] at hx
        rw [← hx.2]
        exact wf_commit_update (wf_delete_leaf hwf hdid0 hhc) hu

theorem wf_tryDeleteOp {s : StoreState} {name : List Char} {rec b : Bool}
    {s2 : StoreState} (hwf : WF s) (h : tryDeleteOp s name rec = .ok (b, s2)) :
    WF s2 := by
  unfold tryDeleteOp at h
  cases hp : parseName s name with
  | error e =>
    rw [hp] at h
    exact absurd h (by simp [Bind.bind, Except.bind])
  | ok path =>
    rw [hp] at h
    have h2 : (if !(resolveIds s.entries 0 path).2.isEmpty
        then (pure (false, s) : Except Err (Bool × StoreState))
        else match tryDeleteEntry s.entries (resolveIds s.entries 0 path).1 rec with
          | none => .error .invalidQuery
          | some (b, es2) => pure (b, { s with entries := es2 })) = .ok (b, s2) := h
    cases hres : (resolveIds s.entries 0 path).2.isEmpty with
    | false =>
      rw [hres] at h2
      have h3 : (Except.ok (false, s) : Except Err (Bool × StoreState)) = .ok (b, s2) := h2
      simp only [Except.ok.injEq, Prod.mk.injEq] at h3
      rw [← h3.2]
      exact hwf
    | true =>
      rw [hres] at h2
      have h3 : (match tryDeleteEntry s.entries (resolveIds s.entries 0 path).1 rec with
          | none => (.error .invalidQuery : Except Err (Bool × StoreState))
          | some (b, es2) => pure (b, { s with entries := es2 })) = .ok (b, s2) := h2
      have hfull : (resolveIds s.entries 0 path).2 = [] := by
        cases hE : (resolveIds s.entries 0 path).2 with
        | nil => rfl
        | cons a t =>
          rw [hE] at hres
          simp at hres
      obtain ⟨hidsne, hpos⟩ := resolved_ids_facts hwf hp hfull
      cases htd : tryDeleteEntry s.entries (resolveIds s.entries 0 path).1 rec with
      | none =>
        rw [htd] at h3
        exact absurd h3 (by simp)
      | some r =>
        rw [htd] at h3
        obtain ⟨b2, es2⟩ := r
        have h4 : (Except.ok (b2, { s with entries := es2 }) :
            Except Err (Bool × StoreState)) = .ok (b, s2) := h3
        simp only [Except.ok.injEq, Prod.mk.injEq] at h4
        rw [← h4.2]
        exact wf_tryDeleteEntry hwf hidsne hpos htd

theorem wf_deleteOp {s : StoreState} {name : List Char} {rec : Bool}
    {s2 : StoreState} (hwf : WF s) (h : deleteOp s name rec = .ok s2) : WF s2 := by
  unfold deleteOp at h
  cases hp : parseName s name with
  | error e =>
    rw [hp] at h
    exact absurd h (by simp [Bind.bind, Except.bind])
  | ok path =>
    rw [hp] at h
    have h2 : (getEntryIdE s.entries path >>= fun ids =>
        match tryDeleteEntry s.entries ids rec with
        | none => .error .invalidQuery
        | some (b, es2) =>
          if b then pure { s with entries := es2 } else .error .hasChildEntry) = .ok s2 := h
    cases hg : getEntryIdE s.entries path with
    | error e =>
      rw [hg] at h2
      exact absurd h2 (by simp [Bind.bind, Except.bind])
    | ok ids =>
      rw [hg] at h2
      have hgfacts : ids = (resolveIds s.entries 0 path).1 ∧
          (resolveIds s.entries 0 path).2 = [] := by
        have hg1 : (if (resolveIds s.entries 0 path).2.isEmpty
            then (Except.ok (resolveIds s.entries 0 path).1 : Except Err (List Int))
            else .error .entryNotFound) = .ok ids := hg
        cases hie : (resolveIds s.entries 0 path).2.isEmpty with
        | false =>
          rw [hie] at hg1
          exact absurd hg1 (by simp)
        | true =>
          rw [hie] at hg1
          constructor
          · have hg2 : (Except.ok (resolveIds s.entries 0 path).1 :
                Except Err (List Int)) = .ok ids := hg1
            simpa using hg2.symm
          · cases hE : (resolveIds s.entries 0 path).2 with
            | nil => rfl
            | cons a t =>
              rw [hE] at hie
              simp at hie
      obtain ⟨hidsne, hpos⟩ := resolved_ids_facts hwf hp hgfacts.2
      have h3 : (match tryDeleteEntry s.entries ids rec with
          | none => (.error .invalidQuery : Except Err StoreState)
          | some (b, es2) =>
            if b then pure { s with entries := es2 } else .error .hasChildEntry) = .ok s2 := h2
      cases htd : tryDeleteEntry s.entries ids rec with
      | none =>
        rw [htd] at h3
        exact absurd h3 (by simp)
      | some r =>
        rw [htd] at h3
        obtain ⟨b2, es2⟩ := r
        cases b2 with
        | false =>
          have h4 : (Except.error .hasChildEntry : Except Err StoreState) = .ok s2 := h3
          exact absurd h4 (by simp)
        | true =>
          have h4 : (Except.ok { s with entries := es2 } : Except Err StoreState) = .ok s2 := h3
          have h5 : { s with entries := es2 } = s2 := by simpa using h4
          rw [← h5]
          rw [hgfacts.1] at htd
          exact wf_tryDeleteEntry hwf hidsne hpos htd


theorem wf_initial (delim : Char) : WF (initialState delim) := by
  refine ⟨by simp [initialState, rootEntry], ⟨rootEntry, by simp [initialState], rfl⟩, ?_, ?_⟩
  · intro e he h0
    have he2 : e = rootEntry := by simpa [initialState] using he
    subst he2
    exact ⟨rfl, rfl⟩
  · intro e he h0
    have he2 : e = rootEntry := by simpa [initialState] using he
    subst he2
    exact absurd rfl h0

/-- Every write operation that commits keeps the structural invariant. -/
theorem wf_applyOp {s s2 : StoreState} {op : Op} (hwf : WF s)
    (h : applyOp s op = some s2) : WF s2 := by
  cases op with
  | create n v revs =>
    have h2 : (createOp s n v revs).toOption = some s2 := h
    cases hc : createOp s n v revs with
    | error e =>
      rw [hc] at h2
      simp [Except.toOption] at h2
    | ok s3 =>
      rw [hc] at h2
      have h3 : s3 = s2 := by simpa [Except.toOption] using h2
      rw [← h3]
      exact wf_createOp hwf hc
  | setVal n v =>
    have h2 : (setOp s n v).toOption = some s2 := h
    cases hc : setOp s n v with
    | error e =>
      rw [hc] at h2
      simp [Except.toOption] at h2
    | ok s3 =>
      rw [hc] at h2
      have h3 : s3 = s2 := by simpa [Except.toOption] using h2
      rw [← h3]
      exact wf_setOp hwf hc
  | setOrCreate n v revs =>
    have h2 : (setOrCreateOp s n v revs).toOption = some s2 := h
    cases hc : setOrCreateOp s n v revs with
    | error e =>
      rw [hc] at h2
      simp [Except.toOption] at h2
    | ok s3 =>
      rw [hc] at h2
      have h3 : s3 = s2 := by simpa [Except.toOption] using h2
      rw [← h3]
      exact wf_setOrCreateOp hwf hc
  | del n r =>
    have h2 : (deleteOp s n r).toOption = some s2 := h
    cases hc : deleteOp s n r with
    | error e =>
      rw [hc] at h2
      simp [Except.toOption] at h2
    | ok s3 =>
      rw [hc] at h2
      have h3 : s3 = s2 := by simpa [Except.toOption] using h2
      rw [← h3]
      exact wf_deleteOp hwf hc
  | tryDel n r =>
    have h2 : (match tryDeleteOp s n r with
        | .ok x => some x.2
        | .error _ => none) = some s2 := h
    cases hc : tryDeleteOp s n r with
    | error e =>
      rw [hc] at h2
      simp at h2
    | ok x =>
      rw [hc] at h2
      have h3 : x.2 = s2 := by simpa using h2
      rw [← h3]
      exact wf_tryDeleteOp hwf hc

theorem wf_runOps : ∀ (ops : List Op) (s0 s : StoreState),
    WF s0 → runOps s0 ops = some s → WF s := by
  intro ops
  induction ops with
  | nil =>
    intro s0 s hwf h
    have h2 : s0 = s := by simpa [runOps] using h
    rw [← h2]
    exact hwf
  | cons op rest ih =>
    intro s0 s hwf h
    have h2 : (match applyOp s0 op with
        | none => none
        | some s1 => runOps s1 rest) = some s := h
    cases ha : applyOp s0 op with
    | none =>
      rw [ha] at h2
      simp at h2
    | some s1 =>
      rw [ha] at h2
      exact ih s1 s (wf_applyOp hwf ha) h2


/-! #### The consistency checker succeeds on structurally sound states -/

theorem allDistinct_iff : ∀ {l : List Int}, allDistinct l = true ↔ l.Nodup := by
  intro l
  induction l with
  | nil => simp [allDistinct]
  | cons x rest ih =>
    simp only [allDistinct, Bool.and_eq_true, List.nodup_cons, ih, Bool.not_eq_true']
    constructor
    · rintro ⟨h1, h2⟩
      exact ⟨by simpa using h1, h2⟩
    · rintro ⟨h1, h2⟩
      exact ⟨by simpa using h1, h2⟩

theorem eraseVisited_clean : ∀ (visited remaining : List Int), remaining.Nodup →
    visited.Nodup → (∀ x, x ∈ visited ↔ x ∈ remaining) →
    eraseVisited remaining visited = (false, []) := by
  intro visited
  induction visited with
  | nil =>
    intro remaining hnr hnv hmem
    have hempty : remaining = [] := by
      cases hE : remaining with
      | nil => rfl
      | cons a t =>
        exfalso
        have : a ∈ ([] : List Int) := (hmem a).mpr (by rw [hE]; simp)
        simp at this
    rw [hempty]
    rfl
  | cons v rest ih =>
    intro remaining hnr hnv hmem
    have hv : v ∈ remaining := (hmem v).mp (List.mem_cons_self v rest)
    have hcont : remaining.contains v = true := by simpa using hv
    show (if remaining.contains v
        then eraseVisited (remaining.erase v) rest
        else (true, (eraseVisited remaining rest).2)) = (false, [])
    rw [hcont]
    show eraseVisited (remaining.erase v) rest = (false, [])
    refine ih (remaining.erase v) (hnr.erase v) (List.nodup_cons.mp hnv).2 ?_
    intro x
    constructor
    · intro hx
      have hxv : x ≠ v := by
        intro hE
        rw [hE] at hx
        exact (List.nodup_cons.mp hnv).1 hx
      exact (List.mem_erase_of_ne hxv).mpr ((hmem x).mp (List.mem_cons_of_mem v hx))
    · intro hx
      have hxr : x ∈ remaining := List.mem_of_mem_erase hx
      have hxv : x ≠ v := by
        intro hE
        rw [hE] at hx
        exact (hnr.not_mem_erase) hx
      rcases List.mem_cons.mp ((hmem x).mpr hxr) with hE | hm
      · exact absurd hE hxv
      · exact hm

theorem nonRootIds_mem {es : List Entry} {x : Int} :
    x ∈ nonRootIds es ↔ ∃ e ∈ es, e.id = x ∧ x ≠ 0 := by
  unfold nonRootIds
  constructor
  · intro h
    obtain ⟨e, he, hei⟩ := List.mem_map.mp h
    have hf := List.mem_filter.mp he
    refine ⟨e, hf.1, hei, ?_⟩
    have h2 := hf.2
    simp only [bne_iff_ne, ne_eq] at h2
    omega
  · rintro ⟨e, he, rfl, hne⟩
    exact List.mem_map.mpr ⟨e, List.mem_filter.mpr ⟨he, by simpa using hne⟩, rfl⟩

theorem nonRootIds_nodup {es : List Entry} (hnd : IdsNodup es) : (nonRootIds es).Nodup :=
  List.Nodup.sublist (List.Sublist.map Entry.id (List.filter_sublist es)) hnd

/-- On a structurally sound table, every non-root row is reachable from the
root along parent links (induction on the id, which strictly decreases
along the parent chain). -/
theorem root_reaches {s : StoreState} (hwf : WF s) :
    ∀ e ∈ s.entries, e.id ≠ 0 → Anc s.entries 0 e.id := by
  have hmain : ∀ n : Nat, ∀ e ∈ s.entries, e.id ≠ 0 → e.id.toNat ≤ n →
      Anc s.entries 0 e.id := by
    intro n
    induction n with
    | zero =>
      intro e he h0 hle
      obtain ⟨ha, hb, -, -, -⟩ := hwf.2.2.2 e he h0
      omega
    | succ n ih =>
      intro e he h0 hle
      obtain ⟨ha, hb, ⟨p, hp, hpid⟩, -, -⟩ := hwf.2.2.2 e he h0
      have hpar : parentOf s.entries e.id = some e.parent :=
        parentOf_eq_of_row hwf.1 he rfl
      by_cases hp0 : e.parent = 0
      · rw [hp0] at hpar
        exact ⟨0 + 1, anc_step h0 hpar 0⟩
      · have hpne : p.id ≠ 0 := by omega
        obtain ⟨g, hg⟩ := ih p hp hpne (by omega)
        rw [hpid] at hg
        exact ⟨0 + 1 + g, anc_glue (anc_step h0 hpar 0) hg⟩
  intro e he h0
  exact hmain e.id.toNat e he h0 le_rfl


/-- With enough fuel, on a duplicate-free table whose parents point strictly
downward, the traversal terminates and visits exactly the strict descendants
of the start id, each once. -/
theorem traverse_spec : ∀ fuel : Nat,
    (∀ es a, IdsNodup es → ParentsBelow es → (descRows es a).length < fuel →
      ∃ l, traverseChildren fuel es a = some l ∧ l.Nodup ∧
        (∀ x, x ∈ l ↔ Anc es a x)) ∧
    (∀ cs es, IdsNodup es → ParentsBelow es → cs.Nodup →
      (∀ a ∈ cs, ∀ b ∈ cs, a ≠ b → ¬ Anc es a b) →
      (∀ c ∈ cs, (descRows es c).length < fuel) →
      ∃ l, traverseList fuel es cs = some l ∧ l.Nodup ∧
        (∀ x, x ∈ l ↔ ∃ c ∈ cs, x = c ∨ Anc es c x)) := by
  intro fuel
  induction fuel with
  | zero =>
    constructor
    · intro es a _ _ hlt
      exact absurd hlt (by omega)
    · intro cs es _ _ _ _ hlt
      cases cs with
      | nil =>
        refine ⟨[], rfl, List.nodup_nil, ?_⟩
        intro x
        simp
      | cons c rest => exact absurd (hlt c (List.mem_cons_self c rest)) (by omega)
  | succ f ih =>
    have hImpl : ∀ es a, IdsNodup es → ParentsBelow es →
        (descRows es a).length < f + 1 →
        ∃ l, traverseChildren (f + 1) es a = some l ∧ l.Nodup ∧
          (∀ x, x ∈ l ↔ Anc es a x) := by
      intro es a hnd hpb hlt
      have hclt : ∀ c ∈ getChildEntries es a, (descRows es c).length < f := by
        intro c hc
        obtain ⟨r, hr, hrid, hrp, hcne⟩ := getChildEntries_mem.mp hc
        have hdl := desc_child_lt hnd hpb hr (by rw [hrid]; exact hcne)
        rw [hrid, hrp] at hdl
        omega
      obtain ⟨l, hl, hnodup, hmem⟩ := ih.2 (getChildEntries es a) es hnd hpb
        (getChildEntries_nodup hnd a)
        (fun x hx y hy hne => sibling_not_anc hnd hpb hx hy hne) hclt
      refine ⟨l, ?_, hnodup, ?_⟩
      · show traverseList f es (getChildEntries es a) = some l
        exact hl
      · intro x
        rw [hmem x]
        constructor
        · rintro ⟨c, hc, hcase⟩
          obtain ⟨g, hg⟩ := child_anc hnd hc
          rcases hcase with rfl | ⟨g2, hg2⟩
          · exact ⟨g, hg⟩
          · exact ⟨g2 + g, anc_glue hg2 hg⟩
        · intro ha
          obtain ⟨g, hg⟩ := ha
          obtain ⟨c, hc, hcase⟩ := anc_decomp hg
          exact ⟨c, hc, hcase⟩
    have hTL : ∀ cs es, IdsNodup es → ParentsBelow es → cs.Nodup →
        (∀ a ∈ cs, ∀ b ∈ cs, a ≠ b → ¬ Anc es a b) →
        (∀ c ∈ cs, (descRows es c).length < f + 1) →
        ∃ l, traverseList (f + 1) es cs = some l ∧ l.Nodup ∧
          (∀ x, x ∈ l ↔ ∃ c ∈ cs, x = c ∨ Anc es c x) := by
      intro cs
      induction cs with
      | nil =>
        intro es _ _ _ _ _
        refine ⟨[], rfl, List.nodup_nil, ?_⟩
        intro x
        simp
      | cons c rest ihcs =>
        intro es hnd hpb hndc hind hlt
        have hcnotin : c ∉ rest := (List.nodup_cons.mp hndc).1
        obtain ⟨sub, hsub, hndsub, hmemsub⟩ := hImpl es c hnd hpb
          (hlt c (List.mem_cons_self c rest))
        obtain ⟨more, hmore, hndmore, hmemmore⟩ := ihcs es hnd hpb
          (List.nodup_cons.mp hndc).2
          (fun a ha b hb hne => hind a (List.mem_cons_of_mem c ha) b
            (List.mem_cons_of_mem c hb) hne)
          (fun c2 h => hlt c2 (List.mem_cons_of_mem c h))
        refine ⟨c :: (sub ++ more), ?_, ?_, ?_⟩
        · show (traverseChildren (f + 1) es c).bind (fun s1 =>
            (traverseList (f + 1) es rest).bind (fun m1 => some (c :: (s1 ++ m1)))) = _
          rw [hsub, hmore]
          rfl
        · rw [List.nodup_cons]
          constructor
          · intro hc
            rcases List.mem_append.mp hc with hs | hm
            · obtain ⟨g, hg⟩ := (hmemsub c).mp hs
              exact absurd (anc_lt hpb hg) (lt_irrefl c)
            · obtain ⟨c2, hc2, hcase⟩ := (hmemmore c).mp hm
              rcases hcase with rfl | hanc
              · exact hcnotin hc2
              · exact hind c2 (List.mem_cons_of_mem c hc2) c
                  (List.mem_cons_self c rest)
                  (fun hE => hcnotin (hE ▸ hc2)) hanc
          · rw [List.nodup_append]
            refine ⟨hndsub, hndmore, ?_⟩
            intro x hxs hxm
            obtain ⟨g, hg⟩ := (hmemsub x).mp hxs
            obtain ⟨c2, hc2, hcase⟩ := (hmemmore x).mp hxm
            have hnec2 : c ≠ c2 := fun hE => hcnotin (hE ▸ hc2)
            rcases hcase with rfl | hanc
            · exact hind c (List.mem_cons_self c rest) x
                (List.mem_cons_of_mem c hc2) hnec2 ⟨g, hg⟩
            · rcases anc_linear hg hanc with hE | h1 | h2
              · exact hnec2 hE
              · exact hind c (List.mem_cons_self c rest) c2
                  (List.mem_cons_of_mem c hc2) hnec2 h1
              · exact hind c2 (List.mem_cons_of_mem c hc2) c
                  (List.mem_cons_self c rest) (fun hE => hnec2 hE.symm) h2
        · intro x
          constructor
          · intro hx
            rcases List.mem_cons.mp hx with hE | hx2
            · exact ⟨c, List.mem_cons_self c rest, Or.inl hE⟩
            · rcases List.mem_append.mp hx2 with hs | hm
              · exact ⟨c, List.mem_cons_self c rest, Or.inr ((hmemsub x).mp hs)⟩
              · obtain ⟨c2, hc2, hcase⟩ := (hmemmore x).mp hm
                exact ⟨c2, List.mem_cons_of_mem c hc2, hcase⟩
          · rintro ⟨c2, hc2, hcase⟩
            rcases List.mem_cons.mp hc2 with hE | hc2r
            · rcases hcase with hE2 | hanc
              · exact List.mem_cons.mpr (Or.inl (hE2.trans hE))
              · rw [hE] at hanc
                exact List.mem_cons.mpr (Or.inr (List.mem_append.mpr
                  (Or.inl ((hmemsub x).mpr hanc))))
            · exact List.mem_cons.mpr (Or.inr (List.mem_append.mpr
                (Or.inr ((hmemmore x).mpr ⟨c2, hc2r, hcase⟩))))
    exact ⟨hImpl, hTL⟩


/-- The consistency checker succeeds on every structurally sound state. -/
theorem wf_check {s : StoreState} (hwf : WF s) :
    checkDataConsistency s = some (.ok ()) := by
  have hnames : namesOk s.entries s.delimiter = true := by
    unfold namesOk
    rw [List.all_eq_true]
    intro e he
    show (!(e.name.contains s.delimiter)) = true
    by_cases h0 : e.id = 0
    · have hn := (hwf.2.2.1 e he h0).2
      rw [hn]
      rfl
    · have hn := (hwf.2.2.2 e he h0).2.2.2.2
      rw [hn]
      rfl
  have hdist : allDistinct (nonRootIds s.entries) = true :=
    allDistinct_iff.mpr (nonRootIds_nodup hwf.1)
  have hpb : ParentsBelow s.entries := fun e he h0 => (hwf.2.2.2 e he h0).2.1
  obtain ⟨visited, htrav, hnodv, hmemv⟩ := (traverse_spec (s.entries.length + 1)).1
    s.entries 0 hwf.1 hpb (Nat.lt_succ_of_le (List.length_filter_le _ _))
  have hmemiff : ∀ x, x ∈ visited ↔ x ∈ nonRootIds s.entries := by
    intro x
    rw [hmemv x, nonRootIds_mem]
    constructor
    · intro ha
      obtain ⟨hne, e, he, hei⟩ := anc_row_exists ha
      exact ⟨e, he, hei, hne⟩
    · rintro ⟨e, he, rfl, hne⟩
      exact root_reaches hwf e he hne
  have herase : eraseVisited (nonRootIds s.entries) visited = (false, []) :=
    eraseVisited_clean visited (nonRootIds s.entries) (nonRootIds_nodup hwf.1)
      hnodv hmemiff
  unfold checkDataConsistency
  rw [hnames, hdist, htrav]
  show (let r := eraseVisited (nonRootIds s.entries) visited
        if r.1 then some (Except.error Err.invalidEntryLinking)
        else if !r.2.isEmpty then some (Except.error Err.abandonedEntry)
        else some (Except.ok ())) = some (Except.ok ())
  rw [herase]
  rfl


/-- Claim C1: every sequence of successful public write operations starting
from a freshly initialized store leaves a committed state on which
`CheckDataConsistency` succeeds: no stored local name contains the current
delimiter, non-root ids are unique, and the root traversal reaches every
non-root entry exactly once. -/
theorem writes_keep_consistency (delim : Char) (ops : List Op) (s : StoreState)
    (h : runOps (initialState delim) ops = some s) :
    checkDataConsistency s = some (.ok ()) :=
  wf_check (wf_runOps ops (initialState delim) s (wf_initial delim) h)

/-- Concrete operation sequence for the C1 witness: one of each public write
operation, all succeeding. -/
def c1Ops : List Op :=
  [ .create ['a', '.', 'b'] (.int 5) [2, 3],
    .setVal ['a'] (.str ['h', 'i']),
    .setOrCreate ['a', '.', 'c'] (.int 1) [4],
    .tryDel ['a', '.', 'b'] false,
    .create ['x'] (.bin [7]) [6],
    .del ['a'] true ]

/-- The state committed by `c1Ops` on a fresh store with delimiter `.`. -/
def c1Final : StoreState :=
  { entries := [{ id := 0, parent := 0, name := [], revision := 6,
                  vtype := .integer, value := .int 0 },
                { id := 4, parent := 0, name := ['x'], revision := 6,
                  vtype := .binary, value := .bin [7] }],
    delimiter := '.' }

/-- Witness for C1: the theorem applies to a concrete run of all five write
operations from the fresh store. -/
theorem writes_keep_consistency_witness :
    checkDataConsistency c1Final = some (.ok ()) :=
  writes_keep_consistency '.' c1Ops c1Final (by decide)

end ConfigStore
